import Mathlib

/-!
Verification of the jsonifier template/snapshot engine.

The definitions below are a shallow embedding of the JavaScript source
(`walker`, `compiler`, `converter`, `createObject`, and the `JSONifier`
class with `constructor`, `add` and `build`).  JavaScript values are
modelled by inductive trees; user-supplied zero-argument function leaves
are modelled by the (deterministic) schedule of values their successive
invocations return; generator-function leaves by the finite list of
values they yield.  Machine-level aliasing of the builder tree is
modelled twice: once purely (the sequence machine records whether it
still reads the builder's live tree) and once with an explicit
heap-with-addresses model used for the deep-copy isolation claim.
-/

namespace Jsonifier

/-- JavaScript primitive values (the leaf kinds a compiled snapshot can hold
besides containers).  `undef` is the `undefined` sentinel, `null` is `null`. -/
inductive Prim where
  | str (s : String)
  | num (n : Int)
  | boolean (b : Bool)
  | null
  | undef
deriving DecidableEq, Repr

/-- A pure JavaScript data value: primitives, arrays and plain objects.
Objects are insertion-ordered association lists, as JavaScript string-keyed
property order is insertion order. -/
inductive PVal where
  | prim (p : Prim)
  | arr (elems : List PVal)
  | obj (fields : List (String × PVal))
deriving Repr

/-- A builder-tree value: pure data plus the two function leaf kinds.
`sfunc sched dflt` models a zero-argument function whose k-th invocation
(0-based) returns `sched.getD k dflt`; `gfunc yields` models a generator
function whose generator yields exactly the listed values. -/
inductive JVal where
  | prim (p : Prim)
  | arr (elems : List JVal)
  | obj (fields : List (String × JVal))
  | sfunc (sched : List PVal) (dflt : PVal)
  | gfunc (yields : List PVal)
deriving Repr

/-- The error taxonomy of the library: `Error('Illegal use of jsonifier#add')`,
the unknown-namespace `Error` raised by `build`, and host-language
`TypeError`s escaping from user-value probing. -/
inductive JSError where
  | illegalArgument (msg : String)
  | unknownNamespace (msg : String)
  | typeError (msg : String)
deriving DecidableEq, Repr

/-- A single-quote character as a string (used when assembling the
unknown-namespace error message exactly as the source template does). -/
def sq : String := String.singleton (Char.ofNat 39)

/-- Lookup in an insertion-ordered JavaScript object. -/
def objGet {α : Type} (fields : List (String × α)) (k : String) : Option α :=
  (fields.find? (fun kv => kv.1 == k)).map (·.2)

/-- JavaScript property write: an existing key keeps its position, a new key
is appended (JS insertion-order semantics). -/
def objSet {α : Type} (fields : List (String × α)) (k : String) (v : α) :
    List (String × α) :=
  if fields.any (fun kv => kv.1 == k) then
    fields.map (fun kv => if kv.1 == k then (k, v) else kv)
  else
    fields ++ [(k, v)]

/-- `Object.assign`-style merge of `source`'s fields into `target`
(source keys win, assignment order = source order). -/
def jsAssign {α : Type} (target source : List (String × α)) :
    List (String × α) :=
  source.foldl (fun t kv => objSet t kv.1 kv.2) target

/-- The keys `"0"`, `"1"`, ... `"n-1"`: own enumerable index keys of an
array (or string) of length `n`. -/
def indexKeys (n : Nat) : List String :=
  (List.range n).map (fun i => toString i)

/-- Pair each element of a list with its decimal index key, mirroring how
`_.assign`/`_.extend` copy an array's own enumerable properties. -/
def indexFields {α : Type} (elems : List α) : List (String × α) :=
  (elems.enum).map (fun iv => (toString iv.1, iv.2))

/-- JavaScript `Array.prototype.join`-style separator fold. -/
def joinComma (parts : List String) : String :=
  String.intercalate ", " parts

mutual
/-- The string an element contributes inside `Array.prototype.toString`:
`null`/`undefined` become the empty string, nested values stringify. -/
def arrElemStr : PVal → String
  | .prim .null => ""
  | .prim .undef => ""
  | .prim (.str s) => s
  | .prim (.num n) => toString n
  | .prim (.boolean b) => cond b "true" "false"
  | .obj _ => "[object Object]"
  | .arr es => arrJoin es
termination_by structural v => v

/-- `Array.prototype.toString` = elements joined with `,`. -/
def arrJoin : List PVal → String
  | [] => ""
  | [v] => arrElemStr v
  | v :: rest => arrElemStr v ++ "," ++ arrJoin rest
termination_by structural l => l
end

/-- JavaScript `value.toString()` on a pure value.  Calling `toString` on
`null`/`undefined` raises a `TypeError` (this is the crash the converter can
hit when probing a function leaf). -/
def jsToString : PVal → Except JSError String
  | .prim .null =>
      .error (.typeError "Cannot read properties of null (reading toString)")
  | .prim .undef =>
      .error (.typeError "Cannot read properties of undefined (reading toString)")
  | .prim (.str s) => .ok s
  | .prim (.num n) => .ok (toString n)
  | .prim (.boolean b) => .ok (cond b "true" "false")
  | .obj _ => .ok "[object Object]"
  | .arr es => .ok (arrJoin es)

/-- `Object.keys(result)` on a pure value: objects list their keys, arrays
and strings their index keys, other primitives coerce to key-less wrappers,
and `null`/`undefined` raise a `TypeError`. -/
def jsKeys : PVal → Except JSError (List String)
  | .prim .null =>
      .error (.typeError "Cannot convert undefined or null to object")
  | .prim .undef =>
      .error (.typeError "Cannot convert undefined or null to object")
  | .prim (.str s) => .ok (indexKeys s.length)
  | .prim (.num _) => .ok []
  | .prim (.boolean _) => .ok []
  | .arr es => .ok (indexKeys es.length)
  | .obj fs => .ok (fs.map (·.1))

/-- Lodash `_.has(result, 'value')`.  The source passes a third argument
`'done'` to `_.has`, but `_.has` takes `(object, path)` and silently ignores
extra arguments, so only the presence of the key `"value"` is tested. -/
def jsHasValue : PVal → Bool
  | .obj fs => fs.any (fun kv => kv.1 == "value")
  | _ => false

/-- JavaScript property read `result[k]` on a pure value, with `undefined`
for anything that is not an object or lacks the key (enough for the
`value`/`done` field reads the compiler performs). -/
def objGetP (v : PVal) (k : String) : PVal :=
  match v with
  | .obj fs => (objGet fs k).getD (.prim .undef)
  | _ => (.prim .undef)

/-- JavaScript truthiness of a pure value. -/
def truthy : PVal → Bool
  | .prim (.boolean b) => b
  | .prim (.num n) => n != 0
  | .prim (.str s) => s != ""
  | .prim .null => false
  | .prim .undef => false
  | .arr _ => true
  | .obj _ => true

/-- Lodash `_.isObject` on a builder-tree value: objects, arrays and
functions (both leaf kinds) are objects; primitives and `null` are not. -/
def isObjectJ : JVal → Bool
  | .obj _ => true
  | .arr _ => true
  | .sfunc _ _ => true
  | .gfunc _ => true
  | .prim _ => false

/-- Lodash `_.isFunction` on a builder-tree value. -/
def isFunctionJ : JVal → Bool
  | .sfunc _ _ => true
  | .gfunc _ => true
  | _ => false

/-- Lodash `_.isUndefined` on a builder-tree value. -/
def isUndefJ : JVal → Bool
  | .prim .undef => true
  | _ => false

/-- JavaScript `ref.split('.')` over the character list: every `'.'` starts a
new (possibly empty) segment, and the empty string splits to `[""]`. -/
def splitDotChars : List Char → List String
  | [] => [""]
  | c :: rest =>
      let ws := splitDotChars rest
      if c == '.' then "" :: ws
      else (String.singleton c ++ ws.headD "") :: ws.tail

/-- JavaScript `ref.split('.')`. -/
def splitDot (s : String) : List String :=
  splitDotChars s.data

/-- Lodash `_.extend(target, finalValue)` restricted to the shapes the merge
branch of `createObject` can reach: object sources merge their fields, array
sources merge their index-keyed elements; `_.extend` copies own and
inherited enumerable string keys, which for an array are exactly its decimal
indices. -/
def jsExtendVal (target : List (String × JVal)) (source : JVal) :
    List (String × JVal) :=
  match source with
  | .obj fs => jsAssign target fs
  | .arr es => jsAssign target (indexFields es)
  | _ => target

/-- The body of `createObject(srcObj, ref, finalValue)` after
`ref.split('.')`.  Each step keeps a slot that `hasOwnProperty` finds and
lodash `isObject` admits — plain mappings, ARRAYS and FUNCTIONS alike — and
refreshes any other slot to a fresh `{}`.  The last step merges an
object/array `finalValue` (`_.isObject(finalValue) &&
!_.isFunction(finalValue)`): into a mapping-or-fresh slot by key
assignment, and into a KEPT ARRAY slot (array source) by `_.extend`
overwriting its leading elements in place — the slot stays an array, the
source's elements followed by the longer target's tail.  Any other
`finalValue` is assigned directly, whatever the slot held.  Descending INTO
a kept array or function at an inner step, and `_.extend`-ing own
enumerable keys ONTO one (a non-empty mapping source on an array, or any
non-empty source on a function), graft string-keyed properties onto values
this tree grammar cannot carry: those calls return `none` rather than a
wrong tree (a source with no own keys copies nothing and leaves the slot
unchanged).  The source also returns a reference to the final node, which
`add` ignores; the model returns the updated root. -/
def createObjectSteps (steps : List String)
    (root : List (String × JVal)) (finalValue : JVal) :
    Option (List (String × JVal)) :=
  match steps with
  | [] => some root
  | [last] =>
      if isObjectJ finalValue && !isFunctionJ finalValue then
        match objGet root last with
        | some (.obj fs) =>
            some (objSet root last (.obj (jsExtendVal fs finalValue)))
        | some (.arr es) =>
            match finalValue with
            | .arr es2 =>
                some (objSet root last (.arr (es2 ++ es.drop es2.length)))
            | .obj [] => some (objSet root last (.arr es))
            | _ => none
        | some (.sfunc s d) =>
            match finalValue with
            | .obj [] => some (objSet root last (.sfunc s d))
            | .arr [] => some (objSet root last (.sfunc s d))
            | _ => none
        | some (.gfunc y) =>
            match finalValue with
            | .obj [] => some (objSet root last (.gfunc y))
            | .arr [] => some (objSet root last (.gfunc y))
            | _ => none
        | _ => some (objSet root last (.obj (jsExtendVal [] finalValue)))
      else
        some (objSet root last finalValue)
  | step :: rest =>
      match objGet root step with
      | some (.obj fs) =>
          (createObjectSteps rest fs finalValue).map
            (fun sub => objSet root step (.obj sub))
      | some (.arr _) => none
      | some (.sfunc _ _) => none
      | some (.gfunc _) => none
      | _ =>
          (createObjectSteps rest [] finalValue).map
            (fun sub => objSet root step (.obj sub))

/-- `createObject` with the dot-splitting of its `ref` argument. -/
def createObject (root : List (String × JVal)) (ref : String)
    (finalValue : JVal) : Option (List (String × JVal)) :=
  createObjectSteps (splitDot ref) root finalValue

/-- `_.assign(this._current, method)`: merge the own enumerable fields of the
first `add` argument into the current subtree.  Objects contribute their
fields, arrays and strings their index-keyed members, functions and other
primitives contribute nothing. -/
def jsAssignVal (target : List (String × JVal)) (source : JVal) :
    List (String × JVal) :=
  match source with
  | .obj fs => jsAssign target fs
  | .arr es => jsAssign target (indexFields es)
  | .prim (.str s) =>
      jsAssign target (indexFields (s.data.map (fun c => JVal.prim (.str (String.singleton c)))))
  | _ => target

/-- Read the subtree `this._current` points into: descend along the
namespace path.  On reachable builders every step is a mapping (the
constructor materializes the path and `add` only mutates within it). -/
def getAtSteps : List String → List (String × JVal) → List (String × JVal)
  | [], fs => fs
  | step :: rest, fs =>
      match objGet fs step with
      | some (.obj sub) => getAtSteps rest sub
      | _ => []

/-- Write the subtree `this._current` points into back at its namespace
path (the pure rendering of mutating through the `_current` reference). -/
def setAtSteps : List String → List (String × JVal) → List (String × JVal) →
    List (String × JVal)
  | [], _, cur => cur
  | step :: rest, fs, cur =>
      let sub : List (String × JVal) :=
        match objGet fs step with
        | some (.obj s) => s
        | _ => []
      objSet fs step (.obj (setAtSteps rest sub cur))

/-- The `JSONifier` builder: its template tree (`this.state`), and the two
recognized options (`namespace`, `limit`).  The `compiler` option always
holds the default snapshot compiler here; no claim swaps it. -/
structure JSONifier where
  state : List (String × JVal)
  nsOpt : Option String
  limitOpt : Option Int
deriving Repr

/-- Constructor options object (`ops.namespace`, `ops.limit`); an options
object lacking a key leaves the corresponding default `undefined`, which the
two `Option` fields model. -/
structure COpts where
  nsOpt : Option String
  limitOpt : Option Int
deriving Repr

/-- The namespace path of a builder, as step lists (`[]` when unset). -/
def nsStepsOfOpt : Option String → List String
  | none => []
  | some ns => splitDot ns

/-- Constructor tail: `this._current = isUndefined(ns) ? this.state :
createObject(this.state, ns, {})` — materialize the namespace path in the
state (merging `{}` into the slot copies nothing and leaves existing
content intact; `none` when the path descends into an array or function,
the grammar boundary of `createObjectSteps`). -/
def applyNs (state : List (String × JVal)) (nsOpt : Option String) :
    Option (List (String × JVal)) :=
  match nsOpt with
  | none => some state
  | some ns => createObject state ns (.obj [])

/-- `new JSONifier()`. -/
def mkEmpty : JSONifier := ⟨[], none, none⟩

/-- `new JSONifier(opts)` with a plain options object: defaults extended by
the options, empty tree, namespace path materialized. -/
def mkOptions (o : COpts) : Option JSONifier :=
  (applyNs [] o.nsOpt).map (fun st => ⟨st, o.nsOpt, o.limitOpt⟩)

/-- `new JSONifier(parent)` or `new JSONifier(parent, opts)`: options are
the defaults extended by `opts` when an options object is passed, and the
tree is `_.cloneDeep(parent.state)` (containers copied, function leaves
carried over) with the namespace path then materialized. -/
def mkInherit (parent : JSONifier) (o : Option COpts) : Option JSONifier :=
  let nsOpt := match o with | some oo => oo.nsOpt | none => none
  let limitOpt := match o with | some oo => oo.limitOpt | none => none
  (applyNs parent.state nsOpt).map (fun st => ⟨st, nsOpt, limitOpt⟩)

/-- `JSONifier#add(method, generator)`.  A string first argument expands a
dot path relative to `this._current`; otherwise, when the second argument is
undefined and the first is a lodash object, its fields are assigned into
`this._current`; any other shape throws `Error('Illegal use of
jsonifier#add')`.  An omitted second argument is `undefined`.  `none` marks
the one modeling boundary: a path-form call whose mutation grafts
properties onto an array or function (see `createObjectSteps`); every
other call renders the source exactly. -/
def JSONifier.add (b : JSONifier) (method : JVal) (generator : JVal) :
    Option (Except JSError JSONifier) :=
  let steps := nsStepsOfOpt b.nsOpt
  match method with
  | .prim (.str ref) =>
      (createObject (getAtSteps steps b.state) ref generator).map
        (fun cur => .ok { b with state := setAtSteps steps b.state cur })
  | _ =>
      if isUndefJ generator && isObjectJ method then
        some (.ok { b with
          state := setAtSteps steps b.state
            (jsAssignVal (getAtSteps steps b.state) method) })
      else
        some (.error (.illegalArgument "Illegal use of jsonifier#add"))

/-- A leaf or container of the lifted (per-sequence) tree produced by
`converter` and mutated in place by each `compiler` pass.  `sfunc` carries
the index of the next invocation of the underlying closure (the probe has
already consumed index `0` by the time a lifted leaf exists); `iter` is the
bound `() => result.next()` stepper over the remaining yields of the one
generator object instantiated by the probe; `badnext` is the stepper the
converter installs when a probe result merely stringifies to
`"[object Generator]"` — invoking `.next()` on it throws. -/
inductive LVal where
  | prim (p : Prim)
  | arr (elems : List LVal)
  | obj (fields : List (String × LVal))
  | sfunc (sched : List PVal) (dflt : PVal) (count : Nat)
  | iter (pending : List PVal)
  | badnext (v : PVal)
deriving Repr

mutual
/-- `converter`'s walk over one value: probe function leaves once, lift
generators to steppers, count the lifted resumable leaves (the `total++`
increments are returned as a per-subtree sum — only the final registry count
is ever read).  A generator function's probe returns a fresh generator
object whose `toString()` is `"[object Generator]"`; a static function's
probe result is stringified, which throws on `null`/`undefined`. -/
def convVal : JVal → Except JSError (LVal × Nat)
  | .prim p => .ok (.prim p, 0)
  | .arr es => do
      let (ls, n) ← convArr es
      .ok (.arr ls, n)
  | .obj fs => do
      let (lfs, n) ← convObj fs
      .ok (.obj lfs, n)
  | .sfunc sched dflt => do
      let r := sched.getD 0 dflt
      let s ← jsToString r
      if s == "[object Generator]" then
        .ok (.badnext r, 1)
      else
        .ok (.sfunc sched dflt 1, 0)
  | .gfunc yields => .ok (.iter yields, 1)
termination_by structural v => v

/-- `converter` over the elements of an array. -/
def convArr : List JVal → Except JSError (List LVal × Nat)
  | [] => .ok ([], 0)
  | v :: rest => do
      let (l, n) ← convVal v
      let (ls, m) ← convArr rest
      .ok (l :: ls, n + m)
termination_by structural l => l

/-- `converter` over the fields of an object (insertion order). -/
def convObj : List (String × JVal) → Except JSError (List (String × LVal) × Nat)
  | [] => .ok ([], 0)
  | (k, v) :: rest => do
      let (l, n) ← convVal v
      let (lfs, m) ← convObj rest
      .ok ((k, l) :: lfs, n + m)
termination_by structural l => l
end

/-- The snapshot compiler's handling of one function-leaf call result: the
step-record sniff `Object.keys(result).length === 2 && _.has(result,
'value')` (the `'done'` argument the source passes to `_.has` is ignored by
lodash).  On a record with truthy `done` the registry is decremented
(returned as a completion count) and the slot frozen to `undefined`; on a
record with falsy `done` the record's `value` is used and the leaf kept; any
other result is used as-is.  `Object.keys` throws on `null`/`undefined`. -/
def compileCall (result : PVal) (keepLeaf : LVal) :
    Except JSError (PVal × LVal × Nat) := do
  let ks ← jsKeys result
  if ks.length == 2 && jsHasValue result then
    if truthy (objGetP result "done") then
      .ok (objGetP result "value", .prim .undef, 1)
    else
      .ok (objGetP result "value", keepLeaf, 0)
  else
    .ok (result, keepLeaf, 0)

mutual
/-- One `compiler` pass over one lifted value: non-functions pass through,
function leaves are invoked once; returns the snapshot value, the leaf's new
state in the lifted tree (the `parent[key] = undefined` freeze on
completion), and the number of `itersWaiting.total--` decrements. -/
def compileVal : LVal → Except JSError (PVal × LVal × Nat)
  | .prim p => .ok (.prim p, .prim p, 0)
  | .arr es => do
      let (ps, ls, n) ← compileArr es
      .ok (.arr ps, .arr ls, n)
  | .obj fs => do
      let (pfs, lfs, n) ← compileObj fs
      .ok (.obj pfs, .obj lfs, n)
  | .sfunc sched dflt count =>
      compileCall (sched.getD count dflt) (.sfunc sched dflt (count + 1))
  | .iter pending =>
      match pending with
      | v :: rest =>
          compileCall (.obj [("value", v), ("done", .prim (.boolean false))])
            (.iter rest)
      | [] =>
          compileCall (.obj [("value", .prim .undef), ("done", .prim (.boolean true))])
            (.iter [])
  | .badnext _ =>
      .error (.typeError "result.next is not a function")
termination_by structural v => v

/-- One `compiler` pass over array elements. -/
def compileArr : List LVal → Except JSError (List PVal × List LVal × Nat)
  | [] => .ok ([], [], 0)
  | v :: rest => do
      let (p, l, n) ← compileVal v
      let (ps, ls, m) ← compileArr rest
      .ok (p :: ps, l :: ls, n + m)
termination_by structural l => l

/-- One `compiler` pass over object fields (insertion order). -/
def compileObj : List (String × LVal) →
    Except JSError (List (String × PVal) × List (String × LVal) × Nat)
  | [] => .ok ([], [], 0)
  | (k, v) :: rest => do
      let (p, l, n) ← compileVal v
      let (pfs, lfs, m) ← compileObj rest
      .ok ((k, p) :: pfs, (k, l) :: lfs, n + m)
termination_by structural l => l
end

/-- `Number.MAX_SAFE_INTEGER`, the modulus of the `for`-loop counter in
`build`'s non-default branch. -/
def msiNat : Nat := 2 ^ 53 - 1

/-- The loop condition `i != limit` of the counted branch: with `limit`
undefined the loose comparison of a number against `undefined` is always
true; otherwise plain numeric disequality. -/
def continueIter (i : Nat) : Option Int → Bool
  | none => true
  | some m => (i : Int) != m

/-- Which loop the memoized generator body entered: the registry-driven
`while (true)` (limit undefined and resumable leaves found) or the counted
`for (let i=0; i != limit; i = (i+1) % Number.MAX_SAFE_INTEGER)`. -/
inductive RunMode where
  | auto
  | counted (i : Nat) (limitOpt : Option Int)
deriving Repr

/-- The state of a sequence whose first pull has already run the lifting
pass: the lifted tree, the registry count `iters.total` (an `Int`: the
source notes it may underflow harmlessly), the loop mode, and whether the
generator body has returned. -/
structure Started where
  tree : List (String × LVal)
  total : Int
  mode : RunMode
  finished : Bool
deriving Repr

/-- One resumption of the generator body: run one compiler pass and either
yield the snapshot or return.  A finished JavaScript generator keeps
answering `{done: true}` without re-entering its body. -/
def stepStarted (s : Started) : Except JSError (Option PVal × Started) :=
  if s.finished then .ok (none, s) else
  match s.mode with
  | .auto => do
      let (snap, tree2, d) ← compileObj s.tree
      let total2 : Int := s.total - d
      if 0 < total2 then
        .ok (some (.obj snap), ⟨tree2, total2, .auto, false⟩)
      else
        .ok (none, ⟨tree2, total2, .auto, true⟩)
  | .counted i lim =>
      if continueIter i lim then do
        let (snap, tree2, d) ← compileObj s.tree
        .ok (some (.obj snap), ⟨tree2, s.total - d, .counted ((i + 1) % msiNat) lim, false⟩)
      else
        .ok (none, { s with finished := true })

/-- What the pending sequence will lift at its first pull: either the
builder's live `this.state` (no namespace pick and no flattening happened in
`build`, so the captured reference is the live tree), or a tree materialized
at `build` time by `_.pick`/`_.assign` (those create a fresh top-level
object; the sharing of its subtrees with the live tree is not represented —
no claim mutates the builder between such a `build` and its first pull). -/
inductive Captured where
  | live
  | materialized (t : List (String × JVal))
deriving Repr

/-- A build sequence: not yet pulled (the generator body has not run), or
started. -/
inductive SeqState where
  | pending (limitOpt : Option Int) (cap : Captured)
  | running (s : Started)
deriving Repr

/-- Pull one element from a sequence (`next()`).  The builder's current tree
is consulted only by a pending live-capture sequence, exactly as the
generator body's deferred `converter(state, iters)` call reads the tree
`build` captured by reference. -/
def pull (bState : List (String × JVal)) :
    SeqState → Except JSError (Option PVal × SeqState)
  | .pending limitOpt cap => do
      let t0 := match cap with
        | .live => bState
        | .materialized t => t
      let (ltree, total0) ← convObj t0
      let mode := if limitOpt.isNone && decide (0 < total0) then
          RunMode.auto
        else
          RunMode.counted 0 limitOpt
      let s0 : Started := ⟨ltree, (total0 : Int), mode, false⟩
      let (r, s1) ← stepStarted s0
      .ok (r, .running s1)
  | .running s => do
      let (r, s1) ← stepStarted s
      .ok (r, .running s1)

/-- The result and state of the `n`-th pull (0-based) against a fixed
builder tree. -/
def pullAt (bState : List (String × JVal)) (seq : SeqState) :
    Nat → Except JSError (Option PVal × SeqState)
  | 0 => pull bState seq
  | n + 1 => do
      let (_, s1) ← pullAt bState seq n
      pull bState s1

/-- The namespace selector of `build`'s options form: a string or an array
of strings. -/
inductive NsArg where
  | one (s : String)
  | many (ss : List String)
deriving Repr

/-- The `build` argument: a string selector, or an options object with
optional `namespace`, `nest` and `limit` keys.  (A non-string, non-object
argument is skipped by both `if`s; callers model it as `none`.) -/
inductive BuildOpt where
  | strOpt (s : String)
  | opts (ns : Option NsArg) (nest : Option Bool) (limitOpt : Option Int)
deriving Repr

/-- `_.pick(state, namespace)`: a fresh object with the requested keys in
request order. -/
def pickKeys (state : List (String × JVal)) (requested : List String) :
    List (String × JVal) :=
  requested.filterMap (fun k => (objGet state k).map (fun v => (k, v)))

/-- `_.assign({}, ..._.values(state))`: flatten the top-level namespace
mappings together, later namespaces winning on key conflicts. -/
def flattenVals (state : List (String × JVal)) : List (String × JVal) :=
  state.foldl (fun acc kv => jsAssignVal acc kv.2) []

/-- The options-object path of `build`: `limit = opt.limit` unconditionally
overwrites the construction-time limit with the call's (possibly absent)
`limit`; requested namespace keys are validated against the tree's
top-level keys — raising the unknown-namespace `Error` synchronously,
before any sequence exists — then picked and optionally flattened. -/
def buildOpts (b : JSONifier) (ns : Option NsArg) (nest : Option Bool)
    (limitOpt : Option Int) : Except JSError SeqState := do
  let nestB := match nest with
    | none => true
    | some v => v
  let state1 ← match ns with
    | none => .ok b.state
    | some arg => do
        let requested := match arg with
          | .one s => [s]
          | .many ss => ss
        let known := b.state.map (·.1)
        let unknown := requested.filter (fun k => !known.contains k)
        if unknown.isEmpty then
          .ok (pickKeys b.state requested)
        else
          .error (.unknownNamespace
            ("Unknown namespace " ++ sq ++ joinComma unknown ++ sq ++ ": "
              ++ joinComma known))
  let state2 := if nestB then state1 else flattenVals state1
  let cap : Captured := if ns.isSome || !nestB then
      .materialized state2
    else
      .live
  .ok (.pending limitOpt cap)

/-- `JSONifier#build(opt)`.  A string argument is rewritten to
`{namespace: [opt], nest: false}` and falls through to the options path;
no argument keeps the construction-time limit and the live tree.  The
returned sequence is pending: the lifting pass runs at the first pull. -/
def JSONifier.build (b : JSONifier) (opt : Option BuildOpt) :
    Except JSError SeqState :=
  match opt with
  | none => .ok (.pending b.limitOpt .live)
  | some (.strOpt s) => buildOpts b (some (.many [s])) (some false) none
  | some (.opts ns nest limitOpt) => buildOpts b ns nest limitOpt

/-- Create a sequence and pull its first element (value only). -/
def firstBuildPull (b : JSONifier) (opt : Option BuildOpt) :
    Except JSError (Option PVal) := do
  let s ← b.build opt
  let (r, _) ← pull b.state s
  .ok r

/-- Create a sequence and take the value of its `n`-th pull (0-based). -/
def nthPullValue (b : JSONifier) (opt : Option BuildOpt) (n : Nat) :
    Except JSError (Option PVal) := do
  let s ← b.build opt
  let (r, _) ← pullAt b.state s n
  .ok r

/-- Shorthand: a numeric builder-tree leaf. -/
def jnum (n : Int) : JVal := .prim (.num n)

/-- Shorthand: a numeric pure value. -/
def pnum (n : Int) : PVal := .prim (.num n)

/-- A call result the engine treats as plain data: `Object.keys` and
`toString` succeed on it (it is not `null`/`undefined`), it does not match
the two-keys-including-`value` step-record sniff, and it does not stringify
to `"[object Generator]"`. -/
def plainResult (r : PVal) : Bool :=
  match jsKeys r, jsToString r with
  | .ok ks, .ok s => !(ks.length == 2 && jsHasValue r) && (s != "[object Generator]")
  | _, _ => false

mutual
/-- Every static-function leaf of the tree returns only plain results. -/
def benignVal : JVal → Bool
  | .prim _ => true
  | .arr es => benignArr es
  | .obj fs => benignFields fs
  | .sfunc sched dflt => sched.all plainResult && plainResult dflt
  | .gfunc _ => true
termination_by structural v => v

/-- `benignVal` over array elements. -/
def benignArr : List JVal → Bool
  | [] => true
  | v :: rest => benignVal v && benignArr rest
termination_by structural l => l

/-- `benignVal` over object fields. -/
def benignFields : List (String × JVal) → Bool
  | [] => true
  | (_, v) :: rest => benignVal v && benignFields rest
termination_by structural l => l
end

mutual
/-- The yield-list lengths of the generator leaves of a tree, in traversal
order. -/
def genLensVal : JVal → List Nat
  | .prim _ => []
  | .arr es => genLensArr es
  | .obj fs => genLensFields fs
  | .sfunc _ _ => []
  | .gfunc ys => [ys.length]
termination_by structural v => v

/-- `genLensVal` over array elements. -/
def genLensArr : List JVal → List Nat
  | [] => []
  | v :: rest => genLensVal v ++ genLensArr rest
termination_by structural l => l

/-- `genLensVal` over object fields. -/
def genLensFields : List (String × JVal) → List Nat
  | [] => []
  | (_, v) :: rest => genLensVal v ++ genLensFields rest
termination_by structural l => l
end

mutual
/-- The lifted tree the converter produces from a benign tree: static
leaves keep their schedule with the probe having consumed invocation `0`,
generator leaves become steppers over their full yield lists. -/
def liftB : JVal → LVal
  | .prim p => .prim p
  | .arr es => .arr (liftBArr es)
  | .obj fs => .obj (liftBFields fs)
  | .sfunc sched dflt => .sfunc sched dflt 1
  | .gfunc ys => .iter ys
termination_by structural v => v

/-- `liftB` over array elements. -/
def liftBArr : List JVal → List LVal
  | [] => []
  | v :: rest => liftB v :: liftBArr rest
termination_by structural l => l

/-- `liftB` over object fields. -/
def liftBFields : List (String × JVal) → List (String × LVal)
  | [] => []
  | (k, v) :: rest => (k, liftB v) :: liftBFields rest
termination_by structural l => l
end

mutual
/-- No `badnext` stepper and every static leaf's schedule is plain: the
invariant one compiler pass preserves on a lifted tree. -/
def lbenignVal : LVal → Bool
  | .prim _ => true
  | .arr es => lbenignArr es
  | .obj fs => lbenignFields fs
  | .sfunc sched dflt _ => sched.all plainResult && plainResult dflt
  | .iter _ => true
  | .badnext _ => false
termination_by structural v => v

/-- `lbenignVal` over array elements. -/
def lbenignArr : List LVal → Bool
  | [] => true
  | v :: rest => lbenignVal v && lbenignArr rest
termination_by structural l => l

/-- `lbenignVal` over object fields. -/
def lbenignFields : List (String × LVal) → Bool
  | [] => true
  | (_, v) :: rest => lbenignVal v && lbenignFields rest
termination_by structural l => l
end

mutual
/-- The remaining-yield counts of the live steppers of a lifted tree, in
traversal order (frozen slots contribute nothing). -/
def pendVal : LVal → List Nat
  | .prim _ => []
  | .arr es => pendArr es
  | .obj fs => pendFields fs
  | .sfunc _ _ _ => []
  | .iter pending => [pending.length]
  | .badnext _ => []
termination_by structural v => v

/-- `pendVal` over array elements. -/
def pendArr : List LVal → List Nat
  | [] => []
  | v :: rest => pendVal v ++ pendArr rest
termination_by structural l => l

/-- `pendVal` over object fields. -/
def pendFields : List (String × LVal) → List Nat
  | [] => []
  | (_, v) :: rest => pendVal v ++ pendFields rest
termination_by structural l => l
end

mutual
/-- The state transformation one compiler pass applies to a benign lifted
tree: static leaves advance their invocation index, a stepper with yields
left consumes one, an exhausted stepper's slot is frozen to the sentinel. -/
def advanceB : LVal → LVal
  | .prim p => .prim p
  | .arr es => .arr (advanceBArr es)
  | .obj fs => .obj (advanceBFields fs)
  | .sfunc sched dflt count => .sfunc sched dflt (count + 1)
  | .iter pending =>
      match pending with
      | _ :: rest => .iter rest
      | [] => .prim .undef
  | .badnext v => .badnext v
termination_by structural v => v

/-- `advanceB` over array elements. -/
def advanceBArr : List LVal → List LVal
  | [] => []
  | v :: rest => advanceB v :: advanceBArr rest
termination_by structural l => l

/-- `advanceB` over object fields. -/
def advanceBFields : List (String × LVal) → List (String × LVal)
  | [] => []
  | (k, v) :: rest => (k, advanceB v) :: advanceBFields rest
termination_by structural l => l
end

/-- One registry round: steppers with no yields left signal completion and
disappear (their count was 0), the others lose one pending yield. -/
def decr (lens : List Nat) : List Nat :=
  lens.filterMap (fun n => if n = 0 then none else some (n - 1))

/-- `decr` iterated. -/
def decrN : Nat → List Nat → List Nat
  | 0, lens => lens
  | j + 1, lens => decr (decrN j lens)

/-! ### Heap model

The pure model above renders `this.state` as a value; deep-copy isolation
(`new JSONifier(b1)` severing all mutable aliasing from `b1`) is about
object identity, so it is settled against an explicit heap: container
cells live at addresses, tree values hold references, and `add`'s
mutations are in-place cell updates.  Function leaves are immutable
descriptors here exactly as in the pure model. -/

/-- A value stored in a heap cell's field or array slot: a primitive, a
function-leaf descriptor (carried by reference by `_.cloneDeep`, but
immutable to `add`), or a reference to a container cell. -/
inductive HVal where
  | prim (p : Prim)
  | sfunc (sched : List PVal) (dflt : PVal)
  | gfunc (yields : List PVal)
  | ref (a : Nat)
deriving Repr

/-- A heap cell: a mutable object (insertion-ordered fields) or array. -/
inductive HCell where
  | objC (fields : List (String × HVal))
  | arrC (elems : List HVal)
deriving Repr

/-- The heap: cells addressed by position; allocation appends. -/
structure Heap where
  cells : List HCell
deriving Repr

/-- Cell lookup. -/
def Heap.get (H : Heap) (a : Nat) : Option HCell := H.cells.get? a

/-- In-place cell update. -/
def Heap.set (H : Heap) (a : Nat) (c : HCell) : Heap := ⟨H.cells.set a c⟩

/-- Allocation of a fresh cell. -/
def Heap.alloc (H : Heap) (c : HCell) : Heap × Nat :=
  (⟨H.cells ++ [c]⟩, H.cells.length)

/-- The addresses a stored value points at. -/
def HVal.refs : HVal → List Nat
  | .ref a => [a]
  | _ => []

/-- The addresses the values of a field list point at. -/
def refsF (fs : List (String × HVal)) : List Nat :=
  fs.flatMap (fun kv => kv.2.refs)

/-- The addresses a cell points at. -/
def HCell.refs : HCell → List Nat
  | .objC fs => refsF fs
  | .arrC es => es.flatMap HVal.refs

/-- Every stored address is a valid cell address. -/
def Closed (H : Heap) : Prop :=
  ∀ a c, H.get a = some c → ∀ r ∈ c.refs, r < H.cells.length

/-- Cells at or above `n0` only reference cells at or above `n0` (the
clone-created segment never points back into the original's segment). -/
def HighSeg (H : Heap) (n0 : Nat) : Prop :=
  ∀ a c, n0 ≤ a → H.get a = some c → ∀ r ∈ c.refs, n0 ≤ r

/-- Cells below `n0` only reference cells below `n0`. -/
def LowClosed (H : Heap) (n0 : Nat) : Prop :=
  ∀ a c, a < n0 → H.get a = some c → ∀ r ∈ c.refs, r < n0

mutual
/-- Materialize a pure value into the heap, allocating fresh container
cells (the way a user-supplied object literal enters the engine; the
model has no separate user heap, so added values never alias anything). -/
def valToHeap : Heap → JVal → Heap × HVal
  | H, .prim p => (H, .prim p)
  | H, .sfunc s d => (H, .sfunc s d)
  | H, .gfunc y => (H, .gfunc y)
  | H, .arr es =>
      let (H2, hs) := valsToHeap H es
      let (H3, a) := H2.alloc (.arrC hs)
      (H3, .ref a)
  | H, .obj fs =>
      let (H2, hfs) := fieldsToHeap H fs
      let (H3, a) := H2.alloc (.objC hfs)
      (H3, .ref a)
termination_by structural _ v => v

/-- `valToHeap` over array elements. -/
def valsToHeap : Heap → List JVal → Heap × List HVal
  | H, [] => (H, [])
  | H, v :: rest =>
      let (H2, hv) := valToHeap H v
      let (H3, hs) := valsToHeap H2 rest
      (H3, hv :: hs)
termination_by structural _ l => l

/-- `valToHeap` over object fields. -/
def fieldsToHeap : Heap → List (String × JVal) → Heap × List (String × HVal)
  | H, [] => (H, [])
  | H, (k, v) :: rest =>
      let (H2, hv) := valToHeap H v
      let (H3, hfs) := fieldsToHeap H2 rest
      (H3, (k, hv) :: hfs)
termination_by structural _ l => l
end

mutual
/-- Read the pure tree rooted at a stored value, spending fuel on every
step (`none` when fuel runs out; any statement quantifies the fuel). -/
def readVal : Nat → Heap → HVal → Option JVal
  | 0, _, _ => none
  | _ + 1, _, .prim p => some (.prim p)
  | _ + 1, _, .sfunc s d => some (.sfunc s d)
  | _ + 1, _, .gfunc y => some (.gfunc y)
  | fuel + 1, H, .ref a =>
      match H.get a with
      | some (.objC fs) => (readFields fuel H fs).map JVal.obj
      | some (.arrC es) => (readVals fuel H es).map JVal.arr
      | none => none
termination_by structural fuel _ _ => fuel

/-- `readVal` over array elements. -/
def readVals : Nat → Heap → List HVal → Option (List JVal)
  | 0, _, _ => none
  | _ + 1, _, [] => some []
  | fuel + 1, H, v :: rest => do
      let jv ← readVal fuel H v
      let r2 ← readVals fuel H rest
      some (jv :: r2)
termination_by structural fuel _ _ => fuel

/-- `readVal` over object fields. -/
def readFields : Nat → Heap → List (String × HVal) →
    Option (List (String × JVal))
  | 0, _, _ => none
  | _ + 1, _, [] => some []
  | fuel + 1, H, (k, v) :: rest => do
      let jv ← readVal fuel H v
      let r2 ← readFields fuel H rest
      some ((k, jv) :: r2)
termination_by structural fuel _ _ => fuel
end

/-- The in-place `_.extend(targetCell, finalValue)` of `createObject`'s
merge branch: allocate the source's field values and assign them over the
target cell's fields. -/
def heapMergeInto (H : Heap) (b : Nat) (gs : List (String × HVal))
    (fv : JVal) : Heap :=
  match fv with
  | .obj ffs =>
      let (H2, hfs) := fieldsToHeap H ffs
      H2.set b (.objC (jsAssign gs hfs))
  | .arr es =>
      let (H2, hs) := valsToHeap H es
      H2.set b (.objC (jsAssign gs (indexFields hs)))
  | _ => H

/-- `createObject(cellAt a, steps, fv)` over the heap: descend along the
steps, forcing each slot to an existing object cell or a fresh `{}` (the
heap layer keeps the simpler slot treatment: lodash `isObject`'s
acceptance of arrays/functions at a slot — which would graft properties
onto them, the `none` boundary of the pure `createObjectSteps` — is not
represented here, and the separation argument below is insensitive to
which content the writes store), then merge or assign the final value.
All writes land in cells reachable from `a` or freshly allocated. -/
def heapCreateObject : Heap → Nat → List String → JVal → Heap
  | H, _, [], _ => H
  | H, a, [last], fv =>
      match H.get a with
      | some (.objC fs) =>
          if isObjectJ fv && !isFunctionJ fv then
            match objGet fs last with
            | some (.ref b) =>
                match H.get b with
                | some (.objC gs) => heapMergeInto H b gs fv
                | _ =>
                    let (H2, b2) := H.alloc (.objC [])
                    heapMergeInto (H2.set a (.objC (objSet fs last (.ref b2))))
                      b2 [] fv
            | _ =>
                let (H2, b2) := H.alloc (.objC [])
                heapMergeInto (H2.set a (.objC (objSet fs last (.ref b2))))
                  b2 [] fv
          else
            let (H2, hv) := valToHeap H fv
            H2.set a (.objC (objSet fs last hv))
      | _ => H
  | H, a, step :: rest2 :: rest, fv =>
      match H.get a with
      | some (.objC fs) =>
          match objGet fs step with
          | some (.ref b) =>
              match H.get b with
              | some (.objC _) => heapCreateObject H b (rest2 :: rest) fv
              | _ =>
                  let (H2, b2) := H.alloc (.objC [])
                  heapCreateObject
                    (H2.set a (.objC (objSet fs step (.ref b2))))
                    b2 (rest2 :: rest) fv
          | _ =>
              let (H2, b2) := H.alloc (.objC [])
              heapCreateObject
                (H2.set a (.objC (objSet fs step (.ref b2))))
                b2 (rest2 :: rest) fv
      | _ => H

/-- `_.assign(cellAt a, src)` over the heap (the object-form `add`). -/
def heapAssignVal (H : Heap) (a : Nat) (src : JVal) : Heap :=
  match H.get a with
  | some (.objC fs) =>
      match src with
      | .obj ffs =>
          let (H2, hfs) := fieldsToHeap H ffs
          H2.set a (.objC (jsAssign fs hfs))
      | .arr es =>
          let (H2, hs) := valsToHeap H es
          H2.set a (.objC (jsAssign fs (indexFields hs)))
      | .prim (.str s) =>
          H.set a (.objC (jsAssign fs (indexFields
            (s.data.map (fun c => HVal.prim (.str (String.singleton c)))))))
      | _ => H
  | _ => H

/-- `JSONifier#add` over the heap, for a builder without a namespace (the
shape `new JSONifier(b1)` produces): `this._current` is the root cell. -/
def heapAdd (H : Heap) (root : Nat) (method generator : JVal) : Heap :=
  match method with
  | .prim (.str ref) => heapCreateObject H root (splitDot ref) generator
  | _ =>
      if isUndefJ generator && isObjectJ method then
        heapAssignVal H root method
      else
        H

/-- A sequence of `add` calls on the same builder. -/
def heapAdds (H : Heap) (root : Nat) : List (JVal × JVal) → Heap
  | [] => H
  | (m, g) :: rest => heapAdds (heapAdd H root m g) root rest

/-- `new JSONifier(b1)` over the heap: `this.state = _.cloneDeep(b1.state)`
— read the parent's tree and materialize a fresh copy.  Containers are
copied, function-leaf descriptors carried over; lodash's preservation of
shared sub-objects WITHIN the clone is not represented (the read
duplicates them), which no claim observes. -/
def heapInherit (H : Heap) (cloneFuel : Nat) (r1 : Nat) : Heap × Nat :=
  let fs := match readVal cloneFuel H (.ref r1) with
    | some (.obj fs) => fs
    | _ => []
  let (H2, hfs) := fieldsToHeap H fs
  let (H3, r2) := H2.alloc (.objC hfs)
  (H3, r2)

/-- The first snapshot of `b1.build()` read off the heap: read the tree at
the root and run the pure build/lift/compile pipeline on it. -/
def heapFirstSnapshot (fuel : Nat) (H : Heap) (r : Nat) :
    Option (Except JSError (Option PVal)) :=
  match readVal fuel H (.ref r) with
  | some (.obj fs) => some (firstBuildPull ⟨fs, none, none⟩ none)
  | _ => none

/-! ### Theorems -/

/-- Helper: a plain result has keys, and the step-record sniff rejects it. -/
theorem plain_keys (r : PVal) (h : plainResult r = true) :
    ∃ ks, jsKeys r = .ok ks ∧ (ks.length == 2 && jsHasValue r) = false := by
  unfold plainResult at h
  cases hk : jsKeys r with
  | error e => rw [hk] at h; simp at h
  | ok ks =>
      cases hs : jsToString r with
      | error e => rw [hk, hs] at h; simp at h
      | ok s =>
          rw [hk, hs] at h
          simp at h
          refine ⟨ks, rfl, ?_⟩
          cases h.1 with
          | inl h1 => simp [h1]
          | inr h1 => simp [h1]

/-- Helper: a plain result stringifies, and not to the generator tag. -/
theorem plain_toString (r : PVal) (h : plainResult r = true) :
    ∃ s, jsToString r = .ok s ∧ (s == "[object Generator]") = false := by
  unfold plainResult at h
  cases hk : jsKeys r with
  | error e => rw [hk] at h; simp at h
  | ok ks =>
      cases hs : jsToString r with
      | error e => rw [hk, hs] at h; simp at h
      | ok s =>
          rw [hk, hs] at h
          simp at h
          exact ⟨s, rfl, by simp [h.2]⟩

/-- Helper: any invocation of a schedule whose entries and default are all
plain returns a plain result. -/
theorem plain_getD (sched : List PVal) (dflt : PVal) (i : Nat)
    (h1 : sched.all plainResult = true) (h2 : plainResult dflt = true) :
    plainResult (sched.getD i dflt) = true := by
  rw [List.getD_eq_getD_get?]
  cases hq : sched.get? i with
  | none => simpa using h2
  | some a =>
      have ha : a ∈ sched := List.get?_mem hq
      simpa using List.all_eq_true.mp h1 a ha

/-- Helper: the compiler passes a plain call result through unchanged and
keeps the leaf. -/
theorem compileCall_plain (r : PVal) (keep : LVal) (h : plainResult r = true) :
    compileCall r keep = .ok (r, keep, 0) := by
  obtain ⟨ks, hk, hcond⟩ := plain_keys r h
  simp [compileCall, hk, hcond, Bind.bind, Except.bind]

mutual
/-- Helper: on a benign value the converter succeeds, producing the lifted
shape and registering one resumable leaf per generator. -/
theorem convVal_benign : ∀ v : JVal, benignVal v = true →
    convVal v = .ok (liftB v, (genLensVal v).length)
  | .prim _, _ => rfl
  | .arr es, h => by
      have ih := convArr_benign es (by simpa [benignVal] using h)
      simp [convVal, ih, liftB, genLensVal, Bind.bind, Except.bind]
  | .obj fs, h => by
      have ih := convObj_benign fs (by simpa [benignVal] using h)
      simp [convVal, ih, liftB, genLensVal, Bind.bind, Except.bind]
  | .sfunc sched dflt, h => by
      have h2 : sched.all plainResult = true ∧ plainResult dflt = true := by
        simpa [benignVal] using h
      have hp := plain_getD sched dflt 0 h2.1 h2.2
      obtain ⟨s, hs, hne⟩ := plain_toString _ hp
      rw [List.getD_eq_getElem?_getD] at hs
      have hne2 : s ≠ "[object Generator]" := by simpa using hne
      simp [convVal, hs, hne2, liftB, genLensVal, Bind.bind, Except.bind]
  | .gfunc _, _ => rfl

/-- Helper: `convVal_benign` over array elements. -/
theorem convArr_benign : ∀ es : List JVal, benignArr es = true →
    convArr es = .ok (liftBArr es, (genLensArr es).length)
  | [], _ => rfl
  | v :: rest, h => by
      have h2 : benignVal v = true ∧ benignArr rest = true := by
        simpa [benignArr] using h
      simp [convArr, convVal_benign v h2.1, convArr_benign rest h2.2,
        liftBArr, genLensArr, List.length_append, Bind.bind, Except.bind]

/-- Helper: `convVal_benign` over object fields. -/
theorem convObj_benign : ∀ fs : List (String × JVal), benignFields fs = true →
    convObj fs = .ok (liftBFields fs, (genLensFields fs).length)
  | [], _ => rfl
  | (k, v) :: rest, h => by
      have h2 : benignVal v = true ∧ benignFields rest = true := by
        simpa [benignFields] using h
      simp [convObj, convVal_benign v h2.1, convObj_benign rest h2.2,
        liftBFields, genLensFields, List.length_append, Bind.bind, Except.bind]
end

mutual
/-- Helper: the lifted tree of a benign tree is benign. -/
theorem lbenign_liftB : ∀ v : JVal, benignVal v = true →
    lbenignVal (liftB v) = true
  | .prim _, _ => rfl
  | .arr es, h => by
      simpa [liftB, lbenignVal] using
        lbenignArr_liftB es (by simpa [benignVal] using h)
  | .obj fs, h => by
      simpa [liftB, lbenignVal] using
        lbenignFields_liftB fs (by simpa [benignVal] using h)
  | .sfunc sched dflt, h => by simpa [liftB, lbenignVal, benignVal] using h
  | .gfunc _, _ => rfl

/-- Helper: `lbenign_liftB` over array elements. -/
theorem lbenignArr_liftB : ∀ es : List JVal, benignArr es = true →
    lbenignArr (liftBArr es) = true
  | [], _ => rfl
  | v :: rest, h => by
      have h2 : benignVal v = true ∧ benignArr rest = true := by
        simpa [benignArr] using h
      simp [liftBArr, lbenignArr, lbenign_liftB v h2.1, lbenignArr_liftB rest h2.2]

/-- Helper: `lbenign_liftB` over object fields. -/
theorem lbenignFields_liftB : ∀ fs : List (String × JVal), benignFields fs = true →
    lbenignFields (liftBFields fs) = true
  | [], _ => rfl
  | (k, v) :: rest, h => by
      have h2 : benignVal v = true ∧ benignFields rest = true := by
        simpa [benignFields] using h
      simp [liftBFields, lbenignFields, lbenign_liftB v h2.1,
        lbenignFields_liftB rest h2.2]
end

mutual
/-- Helper: the pending-yield counts of a lifted tree are the generator
yield lengths of the source tree. -/
theorem pend_liftB : ∀ v : JVal, pendVal (liftB v) = genLensVal v
  | .prim _ => rfl
  | .arr es => by simp [liftB, pendVal, genLensVal, pendArr_liftB es]
  | .obj fs => by simp [liftB, pendVal, genLensVal, pendFields_liftB fs]
  | .sfunc _ _ => rfl
  | .gfunc _ => rfl

/-- Helper: `pend_liftB` over array elements. -/
theorem pendArr_liftB : ∀ es : List JVal, pendArr (liftBArr es) = genLensArr es
  | [] => rfl
  | v :: rest => by
      simp [liftBArr, pendArr, genLensArr, pend_liftB v, pendArr_liftB rest]

/-- Helper: `pend_liftB` over object fields. -/
theorem pendFields_liftB : ∀ fs : List (String × JVal),
    pendFields (liftBFields fs) = genLensFields fs
  | [] => rfl
  | (_, v) :: rest => by
      simp [liftBFields, pendFields, genLensFields, pend_liftB v,
        pendFields_liftB rest]
end

mutual
/-- Helper: one compiler pass advances a benign lifted tree to `advanceB`
of it, decrementing the registry once per exhausted stepper. -/
theorem compileVal_benign : ∀ l : LVal, lbenignVal l = true →
    ∃ snap, compileVal l = .ok (snap, advanceB l, (pendVal l).count 0)
  | .prim p, _ => ⟨.prim p, rfl⟩
  | .arr es, h => by
      obtain ⟨snaps, hc⟩ := compileArr_benign es (by simpa [lbenignVal] using h)
      exact ⟨.arr snaps, by
        simp [compileVal, hc, advanceB, pendVal, Bind.bind, Except.bind]⟩
  | .obj fs, h => by
      obtain ⟨snaps, hc⟩ := compileObj_benign fs (by simpa [lbenignVal] using h)
      exact ⟨.obj snaps, by
        simp [compileVal, hc, advanceB, pendVal, Bind.bind, Except.bind]⟩
  | .sfunc sched dflt count, h => by
      have h2 : sched.all plainResult = true ∧ plainResult dflt = true := by
        simpa [lbenignVal] using h
      refine ⟨sched.getD count dflt, ?_⟩
      have hcc := compileCall_plain (sched.getD count dflt)
        (LVal.sfunc sched dflt (count + 1)) (plain_getD sched dflt count h2.1 h2.2)
      simp only [compileVal, pendVal, advanceB, List.count_nil]
      exact hcc
  | .iter pending, _ =>
      match pending with
      | v :: rest => ⟨v, rfl⟩
      | [] => ⟨.prim .undef, rfl⟩
  | .badnext _, h => by simp [lbenignVal] at h

/-- Helper: `compileVal_benign` over array elements. -/
theorem compileArr_benign : ∀ es : List LVal, lbenignArr es = true →
    ∃ snaps, compileArr es = .ok (snaps, advanceBArr es, (pendArr es).count 0)
  | [], _ => ⟨[], rfl⟩
  | v :: rest, h => by
      have h2 : lbenignVal v = true ∧ lbenignArr rest = true := by
        simpa [lbenignArr] using h
      obtain ⟨snap, hv⟩ := compileVal_benign v h2.1
      obtain ⟨snaps, hr⟩ := compileArr_benign rest h2.2
      exact ⟨snap :: snaps, by
        simp [compileArr, hv, hr, advanceBArr, pendArr, List.count_append,
          Bind.bind, Except.bind]⟩

/-- Helper: `compileVal_benign` over object fields. -/
theorem compileObj_benign : ∀ fs : List (String × LVal), lbenignFields fs = true →
    ∃ snaps, compileObj fs = .ok (snaps, advanceBFields fs, (pendFields fs).count 0)
  | [], _ => ⟨[], rfl⟩
  | (k, v) :: rest, h => by
      have h2 : lbenignVal v = true ∧ lbenignFields rest = true := by
        simpa [lbenignFields] using h
      obtain ⟨snap, hv⟩ := compileVal_benign v h2.1
      obtain ⟨snaps, hr⟩ := compileObj_benign rest h2.2
      exact ⟨(k, snap) :: snaps, by
        simp [compileObj, hv, hr, advanceBFields, pendFields, List.count_append,
          Bind.bind, Except.bind]⟩
end

mutual
/-- Helper: one pass preserves benignity of the lifted tree. -/
theorem lbenign_advanceB : ∀ l : LVal, lbenignVal l = true →
    lbenignVal (advanceB l) = true
  | .prim _, _ => rfl
  | .arr es, h => by
      simpa [advanceB, lbenignVal] using
        lbenignArr_advanceB es (by simpa [lbenignVal] using h)
  | .obj fs, h => by
      simpa [advanceB, lbenignVal] using
        lbenignFields_advanceB fs (by simpa [lbenignVal] using h)
  | .sfunc sched dflt count, h => by
      simpa [advanceB, lbenignVal] using (by simpa [lbenignVal] using h :
        sched.all plainResult = true ∧ plainResult dflt = true)
  | .iter pending, _ => by
      cases pending <;> simp [advanceB, lbenignVal]
  | .badnext _, h => by simp [lbenignVal] at h

/-- Helper: `lbenign_advanceB` over array elements. -/
theorem lbenignArr_advanceB : ∀ es : List LVal, lbenignArr es = true →
    lbenignArr (advanceBArr es) = true
  | [], _ => rfl
  | v :: rest, h => by
      have h2 : lbenignVal v = true ∧ lbenignArr rest = true := by
        simpa [lbenignArr] using h
      simp [advanceBArr, lbenignArr, lbenign_advanceB v h2.1,
        lbenignArr_advanceB rest h2.2]

/-- Helper: `lbenign_advanceB` over object fields. -/
theorem lbenignFields_advanceB : ∀ fs : List (String × LVal),
    lbenignFields fs = true → lbenignFields (advanceBFields fs) = true
  | [], _ => rfl
  | (_, v) :: rest, h => by
      have h2 : lbenignVal v = true ∧ lbenignFields rest = true := by
        simpa [lbenignFields] using h
      simp [advanceBFields, lbenignFields, lbenign_advanceB v h2.1,
        lbenignFields_advanceB rest h2.2]
end

mutual
/-- Helper: one pass turns the pending counts into one `decr` round. -/
theorem pend_advanceB : ∀ l : LVal, pendVal (advanceB l) = decr (pendVal l)
  | .prim _ => rfl
  | .arr es => by simp [advanceB, pendVal, pendArr_advanceB es]
  | .obj fs => by simp [advanceB, pendVal, pendFields_advanceB fs]
  | .sfunc _ _ _ => rfl
  | .iter pending => by cases pending <;> simp [advanceB, pendVal, decr]
  | .badnext _ => rfl

/-- Helper: `pend_advanceB` over array elements. -/
theorem pendArr_advanceB : ∀ es : List LVal,
    pendArr (advanceBArr es) = decr (pendArr es)
  | [] => rfl
  | v :: rest => by
      simp [advanceBArr, pendArr, pend_advanceB v, pendArr_advanceB rest, decr,
        List.filterMap_append]

/-- Helper: `pend_advanceB` over object fields. -/
theorem pendFields_advanceB : ∀ fs : List (String × LVal),
    pendFields (advanceBFields fs) = decr (pendFields fs)
  | [] => rfl
  | (_, v) :: rest => by
      simp [advanceBFields, pendFields, pend_advanceB v,
        pendFields_advanceB rest, decr, List.filterMap_append]
end

/-- Helper: one registry round keeps one stepper per positive pending
count. -/
theorem decr_eq_filter_map (L : List Nat) :
    decr L = (L.filter (fun n => decide (0 < n))).map (fun n => n - 1) := by
  induction L with
  | nil => rfl
  | cons n rest ih =>
      by_cases hn : n = 0
      · subst hn; simp [decr, List.filterMap_cons] at ih ⊢; exact ih
      · simp [decr, List.filterMap_cons, hn, Nat.pos_of_ne_zero hn] at ih ⊢
        exact ih

/-- Helper: a registry round on the survivors-of-`j`-passes list keeps the
survivors of `j + 1` passes. -/
theorem decr_shift (j : Nat) (L : List Nat) :
    decr ((L.filter (fun n => decide (j < n))).map (fun n => n - (j + 1))) =
      (L.filter (fun n => decide (j + 1 < n))).map (fun n => n - (j + 2)) := by
  induction L with
  | nil => rfl
  | cons n rest ih =>
      by_cases h1 : j < n
      · by_cases h2 : j + 1 < n
        · have h3 : ¬(n - (j + 1) = 0) := by omega
          have h4 : n - (j + 1) - 1 = n - (j + 2) := by omega
          simp [decr, List.filterMap_cons, h1, h2, h3, h4] at ih ⊢
          simpa [decr] using ih
        · have h3 : n - (j + 1) = 0 := by omega
          simp [decr, List.filterMap_cons, h1, h2, h3] at ih ⊢
          simpa [decr] using ih
      · have h2 : ¬(j + 1 < n) := by omega
        simp [decr, List.filterMap_cons, h1, h2] at ih ⊢
        simpa [decr] using ih

/-- Helper: the closed form of iterated registry rounds: after `j + 1`
compiler passes the live steppers are those with more than `j` yields, each
holding its remainder. -/
theorem decrN_succ_eq (j : Nat) (L : List Nat) :
    decrN (j + 1) L =
      (L.filter (fun n => decide (j < n))).map (fun n => n - (j + 1)) := by
  induction j with
  | zero => simpa [decrN] using decr_eq_filter_map L
  | succ j ih =>
      show decr (decrN (j + 1) L) = _
      rw [ih]
      simpa using decr_shift j L

/-- Helper: a registry round leaves one stepper per non-exhausted one. -/
theorem decr_length (L : List Nat) :
    (decr L).length = L.length - L.count 0 := by
  have hc : L.count 0 ≤ L.length := List.count_le_length 0 L
  induction L with
  | nil => rfl
  | cons n rest ih =>
      have hcr : rest.count 0 ≤ rest.length := List.count_le_length 0 rest
      by_cases hn : n = 0
      · subst hn
        simp [decr, List.filterMap_cons, List.count_cons] at ih ⊢
        omega
      · simp [decr, List.filterMap_cons, hn, List.count_cons] at ih ⊢
        omega

/-- Helper: every member is bounded by the running maximum. -/
theorem le_foldr_max (L : List Nat) (n : Nat) (h : n ∈ L) :
    n ≤ L.foldr max 0 := by
  induction L with
  | nil => cases h
  | cons a rest ih =>
      cases h with
      | head => exact le_max_left _ _
      | tail _ hmem => exact le_trans (ih hmem) (le_max_right _ _)

/-- Helper: a value below the running maximum is exceeded by a member. -/
theorem exists_gt_of_lt_foldr_max (L : List Nat) (j : Nat)
    (h : j < L.foldr max 0) : ∃ n ∈ L, j < n := by
  induction L with
  | nil => simp at h
  | cons a rest ih =>
      rcases lt_max_iff.mp h with h1 | h1
      · exact ⟨a, List.mem_cons_self a rest, h1⟩
      · obtain ⟨n, hmem, hn⟩ := ih h1
        exact ⟨n, List.mem_cons_of_mem a hmem, hn⟩

/-- Helper: the number of steppers alive after `j + 1` passes is positive
exactly when some generator carried more than `j` yields. -/
theorem decrN_succ_length_pos (j : Nat) (L : List Nat) :
    0 < (decrN (j + 1) L).length ↔ ∃ n ∈ L, j < n := by
  rw [decrN_succ_eq, List.length_map]
  constructor
  · intro h
    obtain ⟨n, hmem⟩ := List.exists_mem_of_length_pos h
    have := List.mem_filter.mp hmem
    exact ⟨n, this.1, by simpa using this.2⟩
  · intro ⟨n, hmem, hn⟩
    have : n ∈ L.filter (fun n => decide (j < n)) :=
      List.mem_filter.mpr ⟨hmem, by simpa using hn⟩
    exact List.length_pos_of_mem this

/-- Helper: registry arithmetic — the `Int` count after a pass equals the
surviving-stepper count. -/
theorem decr_length_int (L : List Nat) :
    (L.length : Int) - (L.count 0 : Int) = ((decr L).length : Int) := by
  have h1 := decr_length L
  have h2 : L.count 0 ≤ L.length := List.count_le_length 0 L
  omega

/-- Helper: evaluation shape of an auto-mode (registry-driven) step. -/
theorem stepStarted_auto_eval (fs : List (String × LVal)) (total : Int)
    (snaps : List (String × PVal)) (lfs2 : List (String × LVal)) (d : Nat)
    (hc : compileObj fs = .ok (snaps, lfs2, d)) :
    stepStarted ⟨fs, total, .auto, false⟩ =
      if 0 < total - (d : Int) then
        .ok (some (.obj snaps), ⟨lfs2, total - (d : Int), .auto, false⟩)
      else
        .ok (none, ⟨lfs2, total - (d : Int), .auto, true⟩) := by
  simp [stepStarted, hc, Bind.bind, Except.bind]

/-- Helper: an auto-mode (registry-driven) step on a benign lifted tree
whose registry matches its live-stepper count: it yields exactly when a
stepper survives the pass, and the registry keeps matching. -/
theorem stepStarted_auto (fs : List (String × LVal))
    (h : lbenignFields fs = true) :
    (0 < (decr (pendFields fs)).length →
      ∃ snap, stepStarted ⟨fs, ((pendFields fs).length : Int), .auto, false⟩ =
        .ok (some snap, ⟨advanceBFields fs,
          ((decr (pendFields fs)).length : Int), .auto, false⟩)) ∧
    ((decr (pendFields fs)).length = 0 →
      stepStarted ⟨fs, ((pendFields fs).length : Int), .auto, false⟩ =
        .ok (none, ⟨advanceBFields fs, ((decr (pendFields fs)).length : Int),
          .auto, true⟩)) := by
  obtain ⟨snaps, hc⟩ := compileObj_benign fs h
  have harith : ((pendFields fs).length : Int) - ((pendFields fs).count 0 : Int) =
      ((decr (pendFields fs)).length : Int) := decr_length_int _
  have heval := stepStarted_auto_eval fs ((pendFields fs).length : Int) snaps
    (advanceBFields fs) ((pendFields fs).count 0) hc
  rw [harith] at heval
  constructor
  · intro hpos
    exact ⟨.obj snaps, by rw [heval, if_pos (by exact_mod_cast hpos)]⟩
  · intro hz
    rw [heval, if_neg (by simp [hz])]

/-- Helper: a counted-mode step with a live loop condition yields the
compiled snapshot and advances the counter with its modulus. -/
theorem stepStarted_counted (fs : List (String × LVal)) (total : Int)
    (i : Nat) (lim : Option Int) (h : lbenignFields fs = true)
    (hc : continueIter i lim = true) :
    ∃ snap, stepStarted ⟨fs, total, .counted i lim, false⟩ =
      .ok (some snap, ⟨advanceBFields fs,
        total - ((pendFields fs).count 0 : Int),
        .counted ((i + 1) % msiNat) lim, false⟩) := by
  obtain ⟨snaps, hco⟩ := compileObj_benign fs h
  exact ⟨.obj snaps, by simp [stepStarted, hc, hco, Bind.bind, Except.bind]⟩

/-- Helper: a counted-mode step whose loop condition failed reports done. -/
theorem stepStarted_counted_stop (fs : List (String × LVal)) (total : Int)
    (i : Nat) (lim : Option Int) (hc : continueIter i lim = false) :
    stepStarted ⟨fs, total, .counted i lim, false⟩ =
      .ok (none, ⟨fs, total, .counted i lim, true⟩) := by
  simp [stepStarted, hc]

/-- Helper: evaluation of a pull on a running sequence. -/
theorem pull_running_eval (bState : List (String × JVal)) (s : Started)
    (res : Option PVal × Started) (hstep : stepStarted s = .ok res) :
    pull bState (.running s) = .ok (res.1, .running res.2) := by
  simp [pull, hstep, Bind.bind, Except.bind]

/-- Helper: evaluation of the first pull of a selector-less sequence over a
benign tree with at least one generator: the converter lifts the live tree,
the registry starts at the generator count, and the body enters the
registry-driven loop. -/
theorem pull_pending_auto (t : List (String × JVal))
    (hb : benignFields t = true) (hpos : 0 < (genLensFields t).length)
    (res : Option PVal × Started)
    (hstep : stepStarted ⟨liftBFields t, ((genLensFields t).length : Int),
      .auto, false⟩ = .ok res) :
    pull t (.pending none .live) = .ok (res.1, .running res.2) := by
  simp [pull, convObj_benign t hb, hpos, hstep, Bind.bind, Except.bind]

/-- Helper: with `limit = -1` the counted loop condition `i != limit` can
never fail, since the wrapping counter stays non-negative. -/
theorem continueIter_neg_one (i : Nat) : continueIter i (some (-1)) = true := by
  simp [continueIter]

/-- Helper: once a leaf slot has been frozen to the exhausted sentinel, a
counted-mode step with `limit = -1` yields the same all-`undefined`
snapshot and only advances the loop counter. -/
theorem stepStarted_undef_loop (k : String) (t : Int) (i : Nat) :
    stepStarted ⟨[(k, .prim .undef)], t, .counted i (some (-1)), false⟩ =
      .ok (some (.obj [(k, .prim .undef)]),
        ⟨[(k, .prim .undef)], t, .counted ((i + 1) % msiNat) (some (-1)), false⟩) := by
  simp [stepStarted, continueIter_neg_one, compileObj, compileVal, compileCall,
    Bind.bind, Except.bind]

/-- Helper: the pull-indexed form of `stepStarted_undef_loop`: every later
pull of such a sequence yields the sentinel snapshot. -/
theorem pullAt_undef_loop (bState : List (String × JVal)) (k : String)
    (t : Int) (i : Nat) (n : Nat) :
    ∃ i2, pullAt bState
        (.running ⟨[(k, .prim .undef)], t, .counted i (some (-1)), false⟩) n =
      .ok (some (.obj [(k, .prim .undef)]),
        .running ⟨[(k, .prim .undef)], t, .counted i2 (some (-1)), false⟩) := by
  induction n generalizing i with
  | zero =>
      exact ⟨(i + 1) % msiNat, by
        simp [pullAt, pull, stepStarted_undef_loop, Bind.bind, Except.bind]⟩
  | succ n ih =>
      obtain ⟨i2, h⟩ := ih i
      exact ⟨(i2 + 1) % msiNat, by
        simp [pullAt, h, pull, stepStarted_undef_loop, Bind.bind, Except.bind]⟩

/-- C2: for a builder with a single generator leaf yielding exactly `[1, 2]`,
`build({limit: -1})` never terminates: the first two pulls yield `1` and
`2`; the generator's completion freezes the slot to the exhausted sentinel
`undefined` instead of raising; and every pull from the third onward —
in particular the fourth and all later ones — yields a snapshot whose leaf
is that sentinel.  Every pull returns a value, so the sequence never
reports done. -/
theorem C2_theorem (k : String) :
    nthPullValue ⟨[(k, .gfunc [pnum 1, pnum 2])], none, none⟩
        (some (.opts none none (some (-1)))) 0 =
      .ok (some (.obj [(k, pnum 1)])) ∧
    nthPullValue ⟨[(k, .gfunc [pnum 1, pnum 2])], none, none⟩
        (some (.opts none none (some (-1)))) 1 =
      .ok (some (.obj [(k, pnum 2)])) ∧
    ∀ j, 2 ≤ j →
      nthPullValue ⟨[(k, .gfunc [pnum 1, pnum 2])], none, none⟩
          (some (.opts none none (some (-1)))) j =
        .ok (some (.obj [(k, .prim .undef)])) := by
  refine ⟨rfl, rfl, ?_⟩
  intro j hj
  obtain ⟨n, rfl⟩ : ∃ n, j = 2 + n := ⟨j - 2, by omega⟩
  have key : ∀ n, ∃ i, pullAt [(k, JVal.gfunc [pnum 1, pnum 2])]
      (.pending (some (-1)) .live) (2 + n) =
        .ok (some (.obj [(k, .prim .undef)]),
          .running ⟨[(k, .prim .undef)], 0, .counted i (some (-1)), false⟩) := by
    intro n
    induction n with
    | zero => exact ⟨3, rfl⟩
    | succ n ih =>
        obtain ⟨i, h⟩ := ih
        refine ⟨(i + 1) % msiNat, ?_⟩
        show (do
          let (_, s1) ← pullAt [(k, JVal.gfunc [pnum 1, pnum 2])]
            (.pending (some (-1)) .live) (2 + n)
          pull [(k, JVal.gfunc [pnum 1, pnum 2])] s1) = _
        rw [h]
        simp [pull, stepStarted_undef_loop, Bind.bind, Except.bind]
  obtain ⟨i, h⟩ := key n
  simp [nthPullValue, JSONifier.build, buildOpts, h, Bind.bind, Except.bind]

/-- C3: the Snapshot Compiler's step-record sniff evaluated at the failing
input: a function leaf returning `{value: 7, foo: 8}` — an object with
exactly two fields, one named `value` and one NOT named `done`.  The claim
(and the source's own intent, visible in the stray `'done'` argument passed
to `_.has` and the "result of an iterator" comment) says such a result must
be used as-is; the code classifies it as a step record because lodash
`_.has` ignores the extra argument, and resolves the leaf to the record's
`value` field `7`.  The first conjunct shows the classification, the second
shows the first snapshot of such a builder. -/
theorem C3_code_eval :
    (∀ keep : LVal,
      compileCall (.obj [("value", pnum 7), ("foo", pnum 8)]) keep =
        .ok (pnum 7, keep, 0)) ∧
    firstBuildPull
        ⟨[("a", .sfunc [.obj [("value", pnum 7), ("foo", pnum 8)]]
            (.obj [("value", pnum 7), ("foo", pnum 8)]))], none, none⟩ none =
      .ok (some (.obj [("a", pnum 7)])) :=
  ⟨fun _ => rfl, rfl⟩

/-- C5 counterexample: an `add` performed after `build()` has returned but
before the sequence's first pull IS visible in the first snapshot, because
`build` captures `this.state` by reference and the lifting pass only runs
inside the lazy generator body at the first `next()`.  First two conjuncts:
the builder `b0 = new jsonifier().add({a: 1})` and the later
`b1 = b0.add({b: 2})` (the same mutated instance).  Third: pulling the
sequence `b0.build()` returned, with the tree as `b1` left it, yields
`{a: 1, b: 2}` — not the `{a: 1}` the claim requires (fourth). -/
theorem C5_counterexample :
    mkEmpty.add (.obj [("a", jnum 1)]) (.prim .undef) =
      some (.ok ⟨[("a", jnum 1)], none, none⟩) ∧
    JSONifier.add ⟨[("a", jnum 1)], none, none⟩ (.obj [("b", jnum 2)])
        (.prim .undef) =
      some (.ok ⟨[("a", jnum 1), ("b", jnum 2)], none, none⟩) ∧
    (do
      let s ← JSONifier.build ⟨[("a", jnum 1)], none, none⟩ none
      let (r, _) ← pull [("a", jnum 1), ("b", jnum 2)] s
      (.ok r : Except JSError (Option PVal))) =
      .ok (some (.obj [("a", pnum 1), ("b", pnum 2)])) ∧
    (.ok (some (.obj [("a", pnum 1), ("b", pnum 2)]))
        : Except JSError (Option PVal)) ≠
      .ok (some (.obj [("a", pnum 1)])) := by
  refine ⟨rfl, rfl, rfl, ?_⟩
  intro h
  simp at h

/-- C6 counterexample: for a builder constructed with `limit: 2` over the
static tree `{a: 1}`, `build()` with no argument honours the limit (second
pull yields, third reports done), but `build({})` — an options object that
omits `limit` — executes `limit = opt.limit`, overwriting the
construction-time limit with `undefined`: with no resumable leaves the
counted loop then runs forever, and the third pull still yields a snapshot
instead of being cut off at 2. -/
theorem C6_counterexample :
    mkOptions ⟨none, some 2⟩ = some ⟨[], none, some 2⟩ ∧
    JSONifier.add ⟨[], none, some 2⟩ (.obj [("a", jnum 1)]) (.prim .undef) =
      some (.ok ⟨[("a", jnum 1)], none, some 2⟩) ∧
    nthPullValue ⟨[("a", jnum 1)], none, some 2⟩ none 1 =
      .ok (some (.obj [("a", pnum 1)])) ∧
    nthPullValue ⟨[("a", jnum 1)], none, some 2⟩ none 2 = .ok none ∧
    nthPullValue ⟨[("a", jnum 1)], none, some 2⟩
        (some (.opts none none none)) 2 =
      .ok (some (.obj [("a", pnum 1)])) :=
  ⟨rfl, rfl, rfl, rfl, rfl⟩

/-- C9: a builder whose tree holds a function leaf returning `null` (a value
the user function produces without throwing): `build()` succeeds and
returns a sequence, and the FIRST PULL throws a `TypeError` from the
lifting pass itself — the converter probes every function leaf by calling
it and invoking `toString()` on the result to recognize generators, and
`null.toString()` throws.  The error is a `TypeError` by constructor, not
`UnknownNamespace` or `IllegalArgument`, and it arises at pull time (the
`build()` call itself returns a pending sequence). -/
theorem C9_theorem :
    JSONifier.build ⟨[("a", .sfunc [.prim .null] (.prim .null))], none, none⟩ none =
      .ok (.pending none .live) ∧
    firstBuildPull ⟨[("a", .sfunc [.prim .null] (.prim .null))], none, none⟩ none =
      .error (.typeError "Cannot read properties of null (reading toString)") :=
  ⟨rfl, rfl⟩

/-- C1 counterexample: a builder whose tree holds the generator leaf
`g: function* () { yield* [1, 2]; }` and a static function leaf `s`
returning `{value: 0, done: true}` every call, with limit unset.  The
static result is step-record-shaped, so the very first compile pass
decrements the registry for it and drains the count to zero before the
generator has ever signalled completion: the first pull reports the
sequence done (zero snapshots), although the claim requires one snapshot
per pull until every generator has completed at least once. -/
theorem C1_counterexample :
    nthPullValue
        ⟨[("g", .gfunc [pnum 1, pnum 2]),
          ("s", .sfunc [.obj [("value", pnum 0), ("done", .prim (.boolean true))]]
            (.obj [("value", pnum 0), ("done", .prim (.boolean true))]))],
          none, none⟩ none 0 = .ok none :=
  rfl

/-- Helper: the registry-driven run of a selector-less sequence over a
benign tree holding at least one generator leaf: after surviving `j + 1`
compiler passes the sequence state tracks the registry exactly. -/
theorem auto_run_inv (t : List (String × JVal)) (hb : benignFields t = true) :
    ∀ j, j < (genLensFields t).foldr max 0 →
      ∃ snap fs2, pullAt t (.pending none .live) j =
        .ok (some snap, .running ⟨fs2,
          (((decrN (j + 1) (genLensFields t)).length : Int)), .auto, false⟩) ∧
        lbenignFields fs2 = true ∧ pendFields fs2 = decrN (j + 1) (genLensFields t) := by
  intro j
  induction j with
  | zero =>
      intro h0
      have hGpos : 0 < (genLensFields t).length := by
        obtain ⟨n, hmem, _⟩ := exists_gt_of_lt_foldr_max _ 0 h0
        exact List.length_pos_of_mem hmem
      have hlb := lbenignFields_liftB t hb
      have hps : 0 < (decr (pendFields (liftBFields t))).length := by
        rw [pendFields_liftB]
        have hex : ∃ n ∈ genLensFields t, 0 < n := exists_gt_of_lt_foldr_max _ 0 h0
        simpa [decrN] using (decrN_succ_length_pos 0 (genLensFields t)).mpr hex
      obtain ⟨snap, hstep⟩ := (stepStarted_auto (liftBFields t) hlb).1 hps
      rw [pendFields_liftB] at hstep
      refine ⟨snap, advanceBFields (liftBFields t), ?_, lbenignFields_advanceB _ hlb, ?_⟩
      · show pull t (.pending none .live) = _
        rw [pull_pending_auto t hb hGpos _ hstep]
        rfl
      · rw [pendFields_advanceB, pendFields_liftB]
        rfl
  | succ j ih =>
      intro hj1
      have hj : j < (genLensFields t).foldr max 0 := Nat.lt_of_succ_lt hj1
      obtain ⟨snap, fs2, hpj, hlb2, hpend2⟩ := ih hj
      have hps : 0 < (decr (pendFields fs2)).length := by
        rw [hpend2]
        have hex : ∃ n ∈ genLensFields t, j + 1 < n :=
          exists_gt_of_lt_foldr_max _ (j + 1) hj1
        exact (decrN_succ_length_pos (j + 1) (genLensFields t)).mpr hex
      have hstate : (((decrN (j + 1) (genLensFields t)).length : Int)) =
          ((pendFields fs2).length : Int) := by rw [hpend2]
      obtain ⟨snap2, hstep⟩ := (stepStarted_auto fs2 hlb2).1 hps
      refine ⟨snap2, advanceBFields fs2, ?_, lbenignFields_advanceB _ hlb2, ?_⟩
      · show (do
            let (_, s1) ← pullAt t (.pending none .live) j
            pull t s1) = _
        rw [hpj]
        have := pull_running_eval t _ _ hstep
        simp only [Bind.bind, Except.bind]
        rw [hstate]
        rw [this]
        have hd : decr (pendFields fs2) = decrN (j + 2) (genLensFields t) := by
          rw [hpend2]; rfl
        rw [hd]
      · rw [pendFields_advanceB, hpend2]
        rfl

/-- C1 (amended): for every builder with unset limit whose tree holds at
least one generator leaf AND whose static function leaves return only plain
results (no `null`/`undefined`, nothing matching the step-record sniff,
nothing stringifying to the generator tag — the counterexample shows the
claim fails without this proviso), the selector-less sequence yields one
snapshot per pull until every generator has signalled completion at least
once — that is, for `M` = the largest yield count — pulls `0 .. M - 1`
yield and pull `M` (the pass draining the registry to zero) is not yielded:
the sequence reports done.  In particular a single leaf with generator
yields `[1, 2]` pulls `1`, then `2`, then done. -/
theorem C1_amended_theorem (t : List (String × JVal))
    (hb : benignFields t = true) (hg : genLensFields t ≠ []) :
    (∀ j, j < (genLensFields t).foldr max 0 →
      ∃ snap, nthPullValue ⟨t, none, none⟩ none j = .ok (some snap)) ∧
    nthPullValue ⟨t, none, none⟩ none ((genLensFields t).foldr max 0) =
      .ok none ∧
    (∀ k : String,
      nthPullValue ⟨[(k, .gfunc [pnum 1, pnum 2])], none, none⟩ none 0 =
        .ok (some (.obj [(k, pnum 1)])) ∧
      nthPullValue ⟨[(k, .gfunc [pnum 1, pnum 2])], none, none⟩ none 1 =
        .ok (some (.obj [(k, pnum 2)])) ∧
      nthPullValue ⟨[(k, .gfunc [pnum 1, pnum 2])], none, none⟩ none 2 =
        .ok none) := by
  have hGpos : 0 < (genLensFields t).length := List.length_pos.mpr hg
  have hnth : ∀ j r s2, pullAt t (.pending none .live) j = .ok (r, s2) →
      nthPullValue ⟨t, none, none⟩ none j = .ok r := by
    intro j r s2 hp
    simp [nthPullValue, JSONifier.build, hp, Bind.bind, Except.bind]
  refine ⟨?_, ?_, fun k => ⟨rfl, rfl, rfl⟩⟩
  · intro j hj
    obtain ⟨snap, fs2, hpj, _, _⟩ := auto_run_inv t hb j hj
    exact ⟨snap, hnth j (some snap) _ hpj⟩
  · rcases Nat.eq_zero_or_pos ((genLensFields t).foldr max 0) with hM | hM
    · have hlb := lbenignFields_liftB t hb
      have hz : (decr (pendFields (liftBFields t))).length = 0 := by
        rw [pendFields_liftB]
        by_contra hnz
        have hpos := Nat.pos_of_ne_zero hnz
        have hex := (decrN_succ_length_pos 0 (genLensFields t)).mp
          (by simpa [decrN] using hpos)
        obtain ⟨n, hmem, hn⟩ := hex
        have := le_foldr_max _ n hmem
        omega
      have hstep := (stepStarted_auto (liftBFields t) hlb).2 hz
      rw [pendFields_liftB] at hstep
      rw [hM]
      exact hnth 0 none _ (by
        show pull t (.pending none .live) = _
        rw [pull_pending_auto t hb hGpos _ hstep])
    · obtain ⟨m, hm⟩ : ∃ m, (genLensFields t).foldr max 0 = m + 1 :=
        ⟨(genLensFields t).foldr max 0 - 1, by omega⟩
      obtain ⟨snap, fs2, hpj, hlb2, hpend2⟩ := auto_run_inv t hb m (by omega)
      have hz : (decr (pendFields fs2)).length = 0 := by
        rw [hpend2]
        by_contra hnz
        have hpos := Nat.pos_of_ne_zero hnz
        have hex := (decrN_succ_length_pos (m + 1) (genLensFields t)).mp
          (by simpa [decrN] using hpos)
        obtain ⟨n, hmem, hn⟩ := hex
        have := le_foldr_max _ n hmem
        omega
      have hstep := (stepStarted_auto fs2 hlb2).2 hz
      have hstate : (((decrN (m + 1) (genLensFields t)).length : Int)) =
          ((pendFields fs2).length : Int) := by rw [hpend2]
      rw [hm]
      have hfin : pullAt t (.pending none .live) (m + 1) =
          .ok (none, .running ⟨advanceBFields fs2,
            ((decr (pendFields fs2)).length : Int), .auto, true⟩) := by
        show (do
            let (_, s1) ← pullAt t (.pending none .live) m
            pull t s1) = _
        rw [hpj]
        simp only [Bind.bind, Except.bind]
        rw [hstate]
        rw [pull_running_eval t _ _ hstep]
      exact hnth (m + 1) none _ hfin

/-- C1 witness: the amended theorem applied to the single-generator builder
with leaf `a` yielding `[1, 2]` — its tree is benign and holds a
generator, and the pull at the maximal yield count (2) reports done. -/
theorem C1_amended_witness :
    benignFields [("a", JVal.gfunc [pnum 1, pnum 2])] = true ∧
    genLensFields [("a", JVal.gfunc [pnum 1, pnum 2])] ≠ [] ∧
    nthPullValue ⟨[("a", JVal.gfunc [pnum 1, pnum 2])], none, none⟩ none
        ((genLensFields [("a", JVal.gfunc [pnum 1, pnum 2])]).foldr max 0) =
      .ok none :=
  ⟨rfl, by decide,
    (C1_amended_theorem [("a", JVal.gfunc [pnum 1, pnum 2])] rfl (by decide)).2.1⟩

/-- Helper: evaluation shape of a counted-mode step with a live condition. -/
theorem stepStarted_counted_eval (fs : List (String × LVal)) (total : Int)
    (i : Nat) (lim : Option Int) (snaps : List (String × PVal))
    (lfs2 : List (String × LVal)) (d : Nat)
    (hco : compileObj fs = .ok (snaps, lfs2, d)) (hc : continueIter i lim = true) :
    stepStarted ⟨fs, total, .counted i lim, false⟩ =
      .ok (some (.obj snaps), ⟨lfs2, total - (d : Int),
        .counted ((i + 1) % msiNat) lim, false⟩) := by
  simp [stepStarted, hc, hco, Bind.bind, Except.bind]

/-- Helper: evaluation of the first pull when the builder carries a
construction- or call-time limit: the body enters the counted loop. -/
theorem pull_pending_limited (t : List (String × JVal))
    (hb : benignFields t = true) (lim : Int) (res : Option PVal × Started)
    (hstep : stepStarted ⟨liftBFields t, ((genLensFields t).length : Int),
      .counted 0 (some lim), false⟩ = .ok res) :
    pull t (.pending (some lim) .live) = .ok (res.1, .running res.2) := by
  simp [pull, convObj_benign t hb, hstep, Bind.bind, Except.bind]

/-- Helper: evaluation of the first pull when the tree has no generator
leaves: the registry stays at zero and the body enters the counted loop
whatever the limit. -/
theorem pull_pending_nogen (t : List (String × JVal))
    (hb : benignFields t = true) (hz : genLensFields t = [])
    (limitOpt : Option Int) (res : Option PVal × Started)
    (hstep : stepStarted ⟨liftBFields t, 0, .counted 0 limitOpt, false⟩ =
      .ok res) :
    pull t (.pending limitOpt .live) = .ok (res.1, .running res.2) := by
  simp [pull, convObj_benign t hb, hz, hstep, Bind.bind, Except.bind]

/-- Helper: the counted loop with limit `n < MAX_SAFE_INTEGER` runs its
condition check per pass; while `j < n` the `j`-th pull compiles and
yields. -/
theorem counted_run_inv (t : List (String × JVal)) (hb : benignFields t = true)
    (n : Nat) (hn : n < msiNat) :
    ∀ j, j < n → ∃ snap fs2 total2,
      pullAt t (.pending (some (n : Int)) .live) j =
        .ok (some snap, .running ⟨fs2, total2, .counted (j + 1) (some (n : Int)),
          false⟩) ∧ lbenignFields fs2 = true := by
  intro j
  induction j with
  | zero =>
      intro h0
      have hlb := lbenignFields_liftB t hb
      have hcond : continueIter 0 (some (n : Int)) = true := by
        simp [continueIter]
        omega
      obtain ⟨snap, hstep⟩ := stepStarted_counted (liftBFields t)
        ((genLensFields t).length : Int) 0 (some (n : Int)) hlb hcond
      rw [Nat.mod_eq_of_lt (by omega : 0 + 1 < msiNat)] at hstep
      refine ⟨snap, advanceBFields (liftBFields t),
        ((genLensFields t).length : Int) -
          ((pendFields (liftBFields t)).count 0 : Int),
        ?_, lbenignFields_advanceB _ hlb⟩
      show pull t (.pending (some (n : Int)) .live) = _
      rw [pull_pending_limited t hb (n : Int) _ hstep]
  | succ j ih =>
      intro hj1
      obtain ⟨snap, fs2, total2, hpj, hlb2⟩ := ih (by omega)
      have hcond : continueIter (j + 1) (some (n : Int)) = true := by
        simp [continueIter]
        omega
      obtain ⟨snap2, hstep⟩ := stepStarted_counted fs2 total2 (j + 1)
        (some (n : Int)) hlb2 hcond
      rw [Nat.mod_eq_of_lt (by omega : j + 1 + 1 < msiNat)] at hstep
      refine ⟨snap2, advanceBFields fs2,
        total2 - ((pendFields fs2).count 0 : Int),
        ?_, lbenignFields_advanceB _ hlb2⟩
      show (do
          let (_, s1) ← pullAt t (.pending (some (n : Int)) .live) j
          pull t s1) = _
      rw [hpj]
      simp only [Bind.bind, Except.bind]
      rw [pull_running_eval t _ _ hstep]

/-- C6 (amended): the construction-time limit `0 ≤ n < MAX_SAFE_INTEGER`
caps a benign builder's sequence ONLY when `build` is called with no
argument: pulls `0 .. n - 1` yield and pull `n` reports done.  A `build`
call with an options object that omits `limit` is NOT governed by the
construction-time value: `limit = opt.limit` overwrites it with
`undefined`, so such a call behaves exactly like a call on a builder
constructed without a limit (third conjunct); an explicit `limit` in the
options object behaves exactly like a construction-time limit, for that
call only (fourth conjunct; `build` never mutates the builder).  A STRING
namespace argument is rewritten to an options object without a `limit`
key before that same overwrite, so it too escapes the construction-time
cap: the sequence it returns is the one a builder constructed WITHOUT a
limit would return (fifth conjunct), and with construction limit `2` the
pull the cap would have cut off still yields (sixth conjunct). -/
theorem C6_amended_theorem (t : List (String × JVal))
    (hb : benignFields t = true) (n : Nat) (hn : n < msiNat) :
    (∀ j, j < n →
      ∃ snap, nthPullValue ⟨t, none, some (n : Int)⟩ none j = .ok (some snap)) ∧
    nthPullValue ⟨t, none, some (n : Int)⟩ none n = .ok none ∧
    (∀ b : JSONifier, b.build (some (.opts none none none)) =
      ({ b with limitOpt := none } : JSONifier).build none) ∧
    (∀ (b : JSONifier) (m : Int), b.build (some (.opts none none (some m))) =
      ({ b with limitOpt := some m } : JSONifier).build none) ∧
    (∀ (b : JSONifier) (s : String), b.build (some (.strOpt s)) =
      ({ b with limitOpt := none } : JSONifier).build (some (.strOpt s))) ∧
    nthPullValue ⟨[("a", .obj [("x", jnum 1)])], none, some 2⟩
        (some (.strOpt "a")) 2 =
      .ok (some (.obj [("x", pnum 1)])) := by
  have hnth : ∀ j r s2,
      pullAt t (.pending (some (n : Int)) .live) j = .ok (r, s2) →
      nthPullValue ⟨t, none, some (n : Int)⟩ none j = .ok r := by
    intro j r s2 hp
    simp [nthPullValue, JSONifier.build, hp, Bind.bind, Except.bind]
  refine ⟨?_, ?_, fun b => rfl, fun b m => rfl, ?_, rfl⟩
  · intro j hj
    obtain ⟨snap, fs2, total2, hpj, _⟩ := counted_run_inv t hb n hn j hj
    exact ⟨snap, hnth j (some snap) _ hpj⟩
  · rcases Nat.eq_zero_or_pos n with hz | hpos
    · subst hz
      have hcond : continueIter 0 (some ((0 : Nat) : Int)) = false := by
        simp [continueIter]
      have hstep := stepStarted_counted_stop (liftBFields t)
        ((genLensFields t).length : Int) 0 (some ((0 : Nat) : Int)) hcond
      have hfin : pullAt t (.pending (some ((0 : Nat) : Int)) .live) 0 =
          .ok (none, .running ⟨liftBFields t, ((genLensFields t).length : Int),
            .counted 0 (some ((0 : Nat) : Int)), true⟩) := by
        show pull t (.pending (some ((0 : Nat) : Int)) .live) = _
        rw [pull_pending_limited t hb _ _ hstep]
      exact hnth 0 none _ hfin
    · obtain ⟨m, hm⟩ : ∃ m, n = m + 1 := ⟨n - 1, by omega⟩
      subst hm
      obtain ⟨snap, fs2, total2, hpj, hlb2⟩ :=
        counted_run_inv t hb (m + 1) hn m (by omega)
      have hcond : continueIter (m + 1) (some ((m + 1 : Nat) : Int)) = false := by
        simp [continueIter]
      have hstep := stepStarted_counted_stop fs2 total2 (m + 1)
        (some ((m + 1 : Nat) : Int)) hcond
      have hfin : pullAt t (.pending (some ((m + 1 : Nat) : Int)) .live) (m + 1) =
          .ok (none, .running ⟨fs2, total2,
            .counted (m + 1) (some ((m + 1 : Nat) : Int)), true⟩) := by
        show (do
            let (_, s1) ← pullAt t (.pending (some ((m + 1 : Nat) : Int)) .live) m
            pull t s1) = _
        rw [hpj]
        simp only [Bind.bind, Except.bind]
        rw [pull_running_eval t _ _ hstep]
      exact hnth (m + 1) none _ hfin
  · intro b s
    cases b
    rfl

/-- C6 witness: the amended theorem applied to the static builder
`{a: 1}` with construction-time limit `2`. -/
theorem C6_amended_witness :
    benignFields [("a", jnum 1)] = true ∧ (2 : Nat) < msiNat ∧
    nthPullValue ⟨[("a", jnum 1)], none, some ((2 : Nat) : Int)⟩ none 2 =
      .ok none :=
  ⟨rfl, by norm_num [msiNat],
    (C6_amended_theorem [("a", jnum 1)] rfl 2 (by norm_num [msiNat])).2.1⟩

/-- Helper: one compiler pass over a single plain static-function leaf:
invoke it once, use its (plain) result as the leaf value, advance its
invocation index. -/
theorem compileObj_single_sfunc (k : String) (sched : List PVal) (dflt : PVal)
    (count : Nat) (h1 : sched.all plainResult = true)
    (h2 : plainResult dflt = true) :
    compileObj [(k, .sfunc sched dflt count)] =
      .ok ([(k, sched.getD count dflt)], [(k, .sfunc sched dflt (count + 1))], 0) := by
  have hcc := compileCall_plain (sched.getD count dflt)
    (.sfunc sched dflt (count + 1)) (plain_getD sched dflt count h1 h2)
  simp only [compileObj, compileVal, Bind.bind, Except.bind]
  rw [hcc]

/-- C10: the lifting pass invokes every function leaf exactly once as a
probe and discards the non-generator result (first conjunct: the leaf stays
the same static function, with invocation `0` consumed and no resumable
registered).  Consequently, on a single-static-leaf builder the `j`-th pull
(0-based) records the result of invocation `j + 1` and leaves the closure
having been called `j + 2` times — one more than the number of snapshots —
so the FIRST snapshot records the function's SECOND result (second and
third conjuncts). -/
theorem C10_theorem :
    (∀ (sched : List PVal) (dflt : PVal),
      plainResult (sched.getD 0 dflt) = true →
      convVal (.sfunc sched dflt) = .ok (.sfunc sched dflt 1, 0)) ∧
    (∀ (k : String) (sched : List PVal) (dflt : PVal),
      sched.all plainResult = true → plainResult dflt = true →
      ∀ j, ∃ i, pullAt [(k, JVal.sfunc sched dflt)] (.pending none .live) j =
        .ok (some (.obj [(k, sched.getD (j + 1) dflt)]),
          .running ⟨[(k, .sfunc sched dflt (j + 2))], 0, .counted i none, false⟩)) ∧
    (∀ (k : String) (sched : List PVal) (dflt : PVal),
      sched.all plainResult = true → plainResult dflt = true →
      ∀ j, nthPullValue ⟨[(k, JVal.sfunc sched dflt)], none, none⟩ none j =
        .ok (some (.obj [(k, sched.getD (j + 1) dflt)]))) := by
  have part1 : ∀ (sched : List PVal) (dflt : PVal),
      plainResult (sched.getD 0 dflt) = true →
      convVal (.sfunc sched dflt) = .ok (.sfunc sched dflt 1, 0) := by
    intro sched dflt h
    obtain ⟨s, hs, hne⟩ := plain_toString _ h
    rw [List.getD_eq_getElem?_getD] at hs
    have hne2 : s ≠ "[object Generator]" := by simpa using hne
    simp [convVal, hs, hne2, Bind.bind, Except.bind]
  have part2 : ∀ (k : String) (sched : List PVal) (dflt : PVal),
      sched.all plainResult = true → plainResult dflt = true →
      ∀ j, ∃ i, pullAt [(k, JVal.sfunc sched dflt)] (.pending none .live) j =
        .ok (some (.obj [(k, sched.getD (j + 1) dflt)]),
          .running ⟨[(k, .sfunc sched dflt (j + 2))], 0, .counted i none, false⟩) := by
    intro k sched dflt h1 h2
    have hb : benignFields [(k, JVal.sfunc sched dflt)] = true := by
      simp [benignFields, benignVal, h1, h2]
    intro j
    induction j with
    | zero =>
        have hco := compileObj_single_sfunc k sched dflt 1 h1 h2
        have hstep := stepStarted_counted_eval [(k, LVal.sfunc sched dflt 1)] 0 0
          none _ _ 0 hco rfl
        refine ⟨(0 + 1) % msiNat, ?_⟩
        have hp := pull_pending_nogen [(k, JVal.sfunc sched dflt)] hb rfl none
          _ hstep
        simpa using hp
    | succ j ih =>
        obtain ⟨i, hpj⟩ := ih
        have hco := compileObj_single_sfunc k sched dflt (j + 2) h1 h2
        have hstep := stepStarted_counted_eval [(k, LVal.sfunc sched dflt (j + 2))]
          0 i none _ _ 0 hco rfl
        refine ⟨(i + 1) % msiNat, ?_⟩
        show (do
            let (_, s1) ← pullAt [(k, JVal.sfunc sched dflt)]
              (.pending none .live) j
            pull [(k, JVal.sfunc sched dflt)] s1) = _
        rw [hpj]
        simp only [Bind.bind, Except.bind]
        have hp := pull_running_eval [(k, JVal.sfunc sched dflt)] _ _ hstep
        simpa using hp
  refine ⟨part1, part2, ?_⟩
  intro k sched dflt h1 h2 j
  obtain ⟨i, hpj⟩ := part2 k sched dflt h1 h2 j
  simp [nthPullValue, JSONifier.build, hpj, Bind.bind, Except.bind]

/-- C10 witness: the theorem applied to the impure static function whose
successive invocations return `10, 20, 30, ...`: the first snapshot records
`20`, the second invocation's result. -/
theorem C10_witness :
    plainResult ([pnum 10, pnum 20, pnum 30].getD 0 (pnum 0)) = true ∧
    [pnum 10, pnum 20, pnum 30].all plainResult = true ∧
    plainResult (pnum 0) = true ∧
    nthPullValue ⟨[("a", JVal.sfunc [pnum 10, pnum 20, pnum 30] (pnum 0))],
        none, none⟩ none 0 =
      .ok (some (.obj [("a", pnum 20)])) :=
  ⟨rfl, rfl, rfl,
    C10_theorem.2.2 "a" [pnum 10, pnum 20, pnum 30] (pnum 0) rfl rfl 0⟩

/-- C5 (amended): `build` captures the live tree and defers lifting to the
first pull, so `add` calls performed after `build()` but before the first
pull ARE reflected in the sequence's snapshots (the counterexample shows
one); what does hold is: (1) a selector-less pending sequence carries no
tree data at all — two selector-less builds with equal limits are the same
pending sequence, whatever the builder trees were when they were created —
and (2) once the first pull has run the lifting pass, the running sequence
ignores the builder entirely, so adds after the first pull cannot affect
later snapshots of that sequence. -/
theorem C5_amended_theorem :
    (∀ (b0 b1 : JSONifier) (s0 s1 : SeqState),
      b0.build none = .ok s0 → b1.build none = .ok s1 →
      b0.limitOpt = b1.limitOpt → s0 = s1) ∧
    (∀ (t1 t2 : List (String × JVal)) (s : Started),
      pull t1 (.running s) = pull t2 (.running s)) := by
  constructor
  · intro b0 b1 s0 s1 h0 h1 hlim
    have e0 : s0 = .pending b0.limitOpt .live := by
      cases h0
      rfl
    have e1 : s1 = .pending b1.limitOpt .live := by
      cases h1
      rfl
    rw [e0, e1, hlim]
  · intro t1 t2 s
    rfl

/-- C5 witness: the amended theorem applied to two builders with distinct
trees and equal (unset) limits. -/
theorem C5_amended_witness :
    JSONifier.build ⟨[("a", jnum 1)], none, none⟩ none =
      .ok (.pending none .live) ∧
    JSONifier.build ⟨[("a", jnum 1), ("b", jnum 2)], none, none⟩ none =
      .ok (.pending none .live) ∧
    (SeqState.pending none .live : SeqState) = .pending none .live :=
  ⟨rfl, rfl,
    C5_amended_theorem.1 ⟨[("a", jnum 1)], none, none⟩
      ⟨[("a", jnum 1), ("b", jnum 2)], none, none⟩ _ _ rfl rfl rfl⟩

/-- Helper: `toString` probing fails only with a `TypeError`. -/
theorem jsToString_typeError : ∀ (r : PVal) (e : JSError),
    jsToString r = .error e → ∃ m, e = .typeError m := by
  intro r e h
  cases r with
  | prim p => cases p <;> simp [jsToString] at h <;> exact ⟨_, h.symm⟩
  | arr es => simp [jsToString] at h
  | obj fs => simp [jsToString] at h

/-- Helper: `Object.keys` fails only with a `TypeError`. -/
theorem jsKeys_typeError : ∀ (r : PVal) (e : JSError),
    jsKeys r = .error e → ∃ m, e = .typeError m := by
  intro r e h
  cases r with
  | prim p => cases p <;> simp [jsKeys] at h <;> exact ⟨_, h.symm⟩
  | arr es => simp [jsKeys] at h
  | obj fs => simp [jsKeys] at h

mutual
/-- Helper: the converter fails only with a `TypeError`. -/
theorem convVal_typeError : ∀ (v : JVal) (e : JSError),
    convVal v = .error e → ∃ m, e = .typeError m
  | .prim _, e, h => by simp [convVal] at h
  | .arr es, e, h => by
      cases hsub : convArr es with
      | error e2 =>
          simp [convVal, hsub, Bind.bind, Except.bind] at h
          exact h ▸ convArr_typeError es e2 hsub
      | ok p => simp [convVal, hsub, Bind.bind, Except.bind] at h
  | .obj fs, e, h => by
      cases hsub : convObj fs with
      | error e2 =>
          simp [convVal, hsub, Bind.bind, Except.bind] at h
          exact h ▸ convObj_typeError fs e2 hsub
      | ok p => simp [convVal, hsub, Bind.bind, Except.bind] at h
  | .sfunc sched dflt, e, h => by
      cases hts : jsToString (sched.getD 0 dflt) with
      | error e2 =>
          rw [List.getD_eq_getElem?_getD] at hts
          simp [convVal, hts, Bind.bind, Except.bind] at h
          exact h ▸ jsToString_typeError _ e2 hts
      | ok s =>
          rw [List.getD_eq_getElem?_getD] at hts
          cases hcs : (s == "[object Generator]") <;>
            simp [convVal, hts, hcs, Bind.bind, Except.bind] at h
  | .gfunc _, e, h => by simp [convVal] at h

/-- Helper: `convVal_typeError` over array elements. -/
theorem convArr_typeError : ∀ (es : List JVal) (e : JSError),
    convArr es = .error e → ∃ m, e = .typeError m
  | [], e, h => by simp [convArr] at h
  | v :: rest, e, h => by
      cases hv : convVal v with
      | error e2 =>
          simp [convArr, hv, Bind.bind, Except.bind] at h
          exact h ▸ convVal_typeError v e2 hv
      | ok p =>
          cases hr : convArr rest with
          | error e2 =>
              simp [convArr, hv, hr, Bind.bind, Except.bind] at h
              exact h ▸ convArr_typeError rest e2 hr
          | ok q => simp [convArr, hv, hr, Bind.bind, Except.bind] at h

/-- Helper: `convVal_typeError` over object fields. -/
theorem convObj_typeError : ∀ (fs : List (String × JVal)) (e : JSError),
    convObj fs = .error e → ∃ m, e = .typeError m
  | [], e, h => by simp [convObj] at h
  | (k, v) :: rest, e, h => by
      cases hv : convVal v with
      | error e2 =>
          simp [convObj, hv, Bind.bind, Except.bind] at h
          exact h ▸ convVal_typeError v e2 hv
      | ok p =>
          cases hr : convObj rest with
          | error e2 =>
              simp [convObj, hv, hr, Bind.bind, Except.bind] at h
              exact h ▸ convObj_typeError rest e2 hr
          | ok q => simp [convObj, hv, hr, Bind.bind, Except.bind] at h
end

/-- Helper: the compiler's call handling fails only with a `TypeError`. -/
theorem compileCall_typeError (r : PVal) (keep : LVal) (e : JSError)
    (h : compileCall r keep = .error e) : ∃ m, e = .typeError m := by
  cases hk : jsKeys r with
  | error e2 =>
      simp [compileCall, hk, Bind.bind, Except.bind] at h
      exact h ▸ jsKeys_typeError r e2 hk
  | ok ks =>
      cases hc1 : (ks.length == 2 && jsHasValue r) <;>
        cases hc2 : truthy (objGetP r "done") <;>
        simp [compileCall, hk, hc1, hc2, Bind.bind, Except.bind] at h

mutual
/-- Helper: one compiler pass fails only with a `TypeError`. -/
theorem compileVal_typeError : ∀ (l : LVal) (e : JSError),
    compileVal l = .error e → ∃ m, e = .typeError m
  | .prim _, e, h => by simp [compileVal] at h
  | .arr es, e, h => by
      cases hsub : compileArr es with
      | error e2 =>
          simp [compileVal, hsub, Bind.bind, Except.bind] at h
          exact h ▸ compileArr_typeError es e2 hsub
      | ok p => simp [compileVal, hsub, Bind.bind, Except.bind] at h
  | .sfunc sched dflt count, e, h =>
      compileCall_typeError _ _ e h
  | .iter [], e, h =>
      Except.noConfusion
        (show Except.ok ((PVal.prim .undef), (LVal.prim .undef), 1) =
          Except.error e from h)
  | .iter (v :: rest), e, h =>
      Except.noConfusion
        (show Except.ok (v, LVal.iter rest, 0) = Except.error e from h)
  | .badnext _, e, h => by
      simp [compileVal] at h
      exact ⟨_, h.symm⟩
  | .obj fs, e, h => by
      cases hsub : compileObj fs with
      | error e2 =>
          simp [compileVal, hsub, Bind.bind, Except.bind] at h
          exact h ▸ compileObj_typeError fs e2 hsub
      | ok p => simp [compileVal, hsub, Bind.bind, Except.bind] at h

/-- Helper: `compileVal_typeError` over array elements. -/
theorem compileArr_typeError : ∀ (es : List LVal) (e : JSError),
    compileArr es = .error e → ∃ m, e = .typeError m
  | [], e, h => by simp [compileArr] at h
  | v :: rest, e, h => by
      cases hv : compileVal v with
      | error e2 =>
          simp [compileArr, hv, Bind.bind, Except.bind] at h
          exact h ▸ compileVal_typeError v e2 hv
      | ok p =>
          cases hr : compileArr rest with
          | error e2 =>
              simp [compileArr, hv, hr, Bind.bind, Except.bind] at h
              exact h ▸ compileArr_typeError rest e2 hr
          | ok q => simp [compileArr, hv, hr, Bind.bind, Except.bind] at h

/-- Helper: `compileVal_typeError` over object fields. -/
theorem compileObj_typeError : ∀ (fs : List (String × LVal)) (e : JSError),
    compileObj fs = .error e → ∃ m, e = .typeError m
  | [], e, h => by simp [compileObj] at h
  | (k, v) :: rest, e, h => by
      cases hv : compileVal v with
      | error e2 =>
          simp [compileObj, hv, Bind.bind, Except.bind] at h
          exact h ▸ compileVal_typeError v e2 hv
      | ok p =>
          cases hr : compileObj rest with
          | error e2 =>
              simp [compileObj, hv, hr, Bind.bind, Except.bind] at h
              exact h ▸ compileObj_typeError rest e2 hr
          | ok q => simp [compileObj, hv, hr, Bind.bind, Except.bind] at h
end

/-- Helper: a sequence step fails only with a `TypeError`. -/
theorem stepStarted_typeError (s : Started) (e : JSError)
    (h : stepStarted s = .error e) : ∃ m, e = .typeError m := by
  obtain ⟨fs, total, mode, fin⟩ := s
  cases fin with
  | true => simp [stepStarted] at h
  | false =>
      cases mode with
      | auto =>
          cases hc : compileObj fs with
          | error e2 =>
              simp [stepStarted, hc, Bind.bind, Except.bind] at h
              exact h ▸ compileObj_typeError fs e2 hc
          | ok p =>
              by_cases hp : (0 : Int) < total - (p.2.2 : Int) <;>
                simp [stepStarted, hc, hp, Bind.bind, Except.bind] at h
      | counted i lim =>
          cases hcont : continueIter i lim with
          | false => simp [stepStarted, hcont] at h
          | true =>
              cases hc : compileObj fs with
              | error e2 =>
                  simp [stepStarted, hcont, hc, Bind.bind, Except.bind] at h
                  exact h ▸ compileObj_typeError fs e2 hc
              | ok p => simp [stepStarted, hcont, hc, Bind.bind, Except.bind] at h

/-- Helper: the deferred generator-body prefix (convert, then first step)
fails only with a `TypeError`. -/
theorem pull_body_typeError (t0 : List (String × JVal)) (limitOpt : Option Int)
    (e : JSError)
    (h : (do
        let (ltree, total0) ← convObj t0
        let (r, s1) ← stepStarted ⟨ltree, (total0 : Int),
          if limitOpt.isNone && decide (0 < total0) then RunMode.auto
          else RunMode.counted 0 limitOpt, false⟩
        (.ok (r, .running s1) : Except JSError (Option PVal × SeqState))) =
      .error e) :
    ∃ m, e = .typeError m := by
  simp only [Bind.bind, Except.bind] at h
  split at h
  · rename_i e2 hcv
    injection h with h3
    exact h3 ▸ convObj_typeError t0 e2 hcv
  · rename_i v hcv
    split at h
    · rename_i e2 hs
      injection h with h3
      exact h3 ▸ stepStarted_typeError _ e2 hs
    · exact Except.noConfusion h

/-- Helper: a pull fails only with a `TypeError`. -/
theorem pull_typeError (bState : List (String × JVal)) (seq : SeqState)
    (e : JSError) (h : pull bState seq = .error e) : ∃ m, e = .typeError m := by
  cases seq with
  | running s =>
      cases hs : stepStarted s with
      | error e2 =>
          simp [pull, hs, Bind.bind, Except.bind] at h
          exact h ▸ stepStarted_typeError s e2 hs
      | ok p => simp [pull, hs, Bind.bind, Except.bind] at h
  | pending limitOpt cap =>
      cases cap with
      | live => exact pull_body_typeError bState limitOpt e h
      | materialized t => exact pull_body_typeError t limitOpt e h

/-- Helper: iterated pulls fail only with a `TypeError`. -/
theorem pullAt_typeError (bState : List (String × JVal)) (seq : SeqState) :
    ∀ (n : Nat) (e : JSError), pullAt bState seq n = .error e →
      ∃ m, e = .typeError m := by
  intro n
  induction n with
  | zero => exact fun e h => pull_typeError bState seq e h
  | succ n ih =>
      intro e h
      cases hp : pullAt bState seq n with
      | error e2 =>
          simp [pullAt, hp, Bind.bind, Except.bind] at h
          exact h ▸ ih e2 hp
      | ok p =>
          have h2 : pull bState p.2 = .error e := by
            simpa [pullAt, hp, Bind.bind, Except.bind] using h
          exact pull_typeError bState p.2 e h2

/-- C8: namespace validation is front-loaded in `build`.  First conjunct
(options form, array selector): when some requested key is missing from the
tree's top-level keys, `build` itself returns the unknown-namespace error,
whose message lists the unknown keys and the full known-key set, and no
sequence is created; when all requested keys are known a pending sequence
is returned.  Second and third conjuncts: a string selector inside the
options form, and the bare string selector form (which also flattens and
drops the limit), reduce to the array form.  Fourth conjunct: pulling from
any sequence can only raise a `TypeError` — never the unknown-namespace (or
illegal-argument) error. -/
theorem C8_theorem :
    (∀ (b : JSONifier) (req : List String) (nest : Option Bool)
      (lim : Option Int),
      ((req.filter (fun k2 => !(b.state.map (·.1)).contains k2)) ≠ [] →
        b.build (some (.opts (some (.many req)) nest lim)) =
          .error (.unknownNamespace ("Unknown namespace " ++ sq ++
            joinComma (req.filter (fun k2 => !(b.state.map (·.1)).contains k2))
            ++ sq ++ ": " ++ joinComma (b.state.map (·.1))))) ∧
      ((req.filter (fun k2 => !(b.state.map (·.1)).contains k2)) = [] →
        ∃ cap, b.build (some (.opts (some (.many req)) nest lim)) =
          .ok (.pending lim cap))) ∧
    (∀ (b : JSONifier) (s : String) (nest : Option Bool) (lim : Option Int),
      b.build (some (.opts (some (.one s)) nest lim)) =
        b.build (some (.opts (some (.many [s])) nest lim))) ∧
    (∀ (b : JSONifier) (s : String),
      b.build (some (.strOpt s)) =
        b.build (some (.opts (some (.many [s])) (some false) none))) ∧
    (∀ (bState : List (String × JVal)) (seq : SeqState) (n : Nat)
      (e : JSError), pullAt bState seq n = .error e → ∃ m, e = .typeError m) := by
  refine ⟨?_, fun b s nest lim => rfl, fun b s => rfl, pullAt_typeError⟩
  intro b req nest lim
  constructor
  · intro hne
    have hwit : ∃ x ∈ req, ∀ v : JVal, (x, v) ∉ b.state := by
      obtain ⟨y, hy⟩ := List.exists_mem_of_ne_nil _ hne
      have hmf := List.mem_filter.mp hy
      have hcon := hmf.2
      simp at hcon
      exact ⟨y, hmf.1, hcon⟩
    simp [JSONifier.build, buildOpts, Bind.bind, Except.bind]
    exact hwit
  · intro hz
    have hall : ∀ x ∈ req, ∃ v : JVal, (x, v) ∈ b.state := by
      intro x hx
      have hnp := (List.filter_eq_nil_iff.mp hz) x hx
      simp at hnp
      exact hnp
    refine ⟨if (match nest with | none => true | some v => v) then
        .materialized (pickKeys b.state req)
      else .materialized (flattenVals (pickKeys b.state req)), ?_⟩
    cases nest with
    | none =>
        simp [JSONifier.build, buildOpts, Bind.bind, Except.bind]
        exact hall
    | some nv =>
        cases nv <;>
          simp [JSONifier.build, buildOpts, Bind.bind, Except.bind] <;>
          exact hall

/-- C8 witness: the theorem applied to the one-key builder `{a: 1}`, the
unknown selector `nope` (raising synchronously from `build` with the
message naming `nope` and the known key `a`), the known selector `a`
(returning a sequence), and a concrete failing pull. -/
theorem C8_witness :
    (["nope"].filter
        (fun k2 => !([("a", jnum 1)].map (·.1)).contains k2)) ≠ [] ∧
    JSONifier.build ⟨[("a", jnum 1)], none, none⟩
        (some (.opts (some (.many ["nope"])) none none)) =
      .error (.unknownNamespace ("Unknown namespace " ++ sq ++
        joinComma (["nope"].filter
          (fun k2 => !([("a", jnum 1)].map (·.1)).contains k2))
        ++ sq ++ ": " ++ joinComma ([("a", jnum 1)].map (·.1)))) ∧
    (["a"].filter (fun k2 => !([("a", jnum 1)].map (·.1)).contains k2)) = [] ∧
    (∃ cap, JSONifier.build ⟨[("a", jnum 1)], none, none⟩
        (some (.opts (some (.many ["a"])) none none)) =
      .ok (.pending none cap)) :=
  ⟨by decide,
    (C8_theorem.1 ⟨[("a", jnum 1)], none, none⟩ ["nope"] none none).1 (by decide),
    by decide,
    (C8_theorem.1 ⟨[("a", jnum 1)], none, none⟩ ["a"] none none).2 (by decide)⟩

/-- Helper: a successful cell lookup is within bounds. -/
theorem Heap.get_lt {H : Heap} {a : Nat} {c : HCell} (h : H.get a = some c) :
    a < H.cells.length :=
  (List.get?_eq_some.mp h).1

/-- Helper: writing one cell leaves the others. -/
theorem Heap.get_set_of_ne (H : Heap) (a : Nat) (c : HCell) (b : Nat)
    (h : b ≠ a) : (H.set a c).get b = H.get b :=
  List.get?_set_ne c H.cells h.symm

/-- Helper: reading back a written cell. -/
theorem Heap.get_set_self (H : Heap) (a : Nat) (c : HCell)
    (h : a < H.cells.length) : (H.set a c).get a = some c :=
  List.get?_set_eq_of_lt c h

/-- Helper: writing preserves the heap size. -/
theorem Heap.length_set (H : Heap) (a : Nat) (c : HCell) :
    (H.set a c).cells.length = H.cells.length :=
  List.length_set H.cells a c

/-- Helper: allocation leaves existing cells. -/
theorem Heap.get_alloc_low (H : Heap) (c : HCell) (b : Nat)
    (h : b < H.cells.length) : (H.alloc c).1.get b = H.get b :=
  List.get?_append h

/-- Helper: reading the allocated cell. -/
theorem Heap.get_alloc_new (H : Heap) (c : HCell) :
    (H.alloc c).1.get H.cells.length = some c :=
  List.get?_concat_length H.cells c

/-- Helper: allocation grows the heap by one. -/
theorem Heap.length_alloc (H : Heap) (c : HCell) :
    (H.alloc c).1.cells.length = H.cells.length + 1 := by
  simp [Heap.alloc]

/-- Helper: a looked-up field value's references are cell references. -/
theorem mem_refs_objGet {fs : List (String × HVal)} {k : String} {v : HVal}
    (h : objGet fs k = some v) {r : Nat} (hr : r ∈ v.refs) : r ∈ refsF fs := by
  unfold objGet at h
  cases hfind : fs.find? (fun kv => kv.1 == k) with
  | none => rw [hfind] at h; cases h
  | some kv =>
      rw [hfind] at h
      have hm := List.mem_of_find?_eq_some hfind
      injection h with h2
      refine List.mem_flatMap.mpr ⟨kv, hm, ?_⟩
      have h3 : kv.2 = v := h2
      rw [h3]
      exact hr

/-- Helper: a property write's references come from the old fields or the
written value. -/
theorem mem_refs_objSet {fs : List (String × HVal)} {k : String} {v : HVal}
    {r : Nat} (h : r ∈ refsF (objSet fs k v)) : r ∈ refsF fs ∨ r ∈ v.refs := by
  unfold objSet at h
  by_cases hany : fs.any (fun kv => kv.1 == k)
  · rw [if_pos hany] at h
    obtain ⟨kv, hkv, hr⟩ := List.mem_flatMap.mp h
    obtain ⟨kv0, hkv0, heq⟩ := List.mem_map.mp hkv
    by_cases hk : kv0.1 == k
    · rw [if_pos hk] at heq
      right
      rw [← heq] at hr
      exact hr
    · rw [if_neg hk] at heq
      left
      exact List.mem_flatMap.mpr ⟨kv0, hkv0, by rw [heq]; exact hr⟩
  · rw [if_neg hany] at h
    unfold refsF at h
    rw [List.flatMap_append] at h
    rcases List.mem_append.mp h with h2 | h2
    · exact .inl h2
    · right
      simpa [HVal.refs] using h2

/-- Helper: an assignment merge's references come from either side. -/
theorem mem_refs_jsAssign {gs hfs : List (String × HVal)} {r : Nat}
    (h : r ∈ refsF (jsAssign gs hfs)) : r ∈ refsF gs ∨ r ∈ refsF hfs := by
  induction hfs generalizing gs with
  | nil => exact .inl h
  | cons kv rest ih =>
      have h2 := @ih (objSet gs kv.1 kv.2) h
      rcases h2 with h3 | h3
      · rcases mem_refs_objSet h3 with h4 | h4
        · exact .inl h4
        · right
          unfold refsF
          rw [List.flatMap_cons]
          exact List.mem_append.mpr (.inl h4)
      · right
        unfold refsF
        rw [List.flatMap_cons]
        exact List.mem_append.mpr (.inr h3)

/-- Helper: index-keyed fields reference what their values reference. -/
theorem mem_refs_indexFields {hs : List HVal} {r : Nat}
    (h : r ∈ refsF (indexFields hs)) : ∃ hv ∈ hs, r ∈ hv.refs := by
  obtain ⟨kv, hkv, hr⟩ := List.mem_flatMap.mp h
  obtain ⟨iv, hiv, heq⟩ := List.mem_map.mp hkv
  refine ⟨iv.2, ?_, by rw [← heq] at hr; exact hr⟩
  exact List.getElem?_mem (List.mem_enum_iff_getElem?.mp hiv)

mutual
/-- Helper: materializing a value only allocates: old cells are untouched,
the produced value and all new cells reference only the new segment. -/
theorem valToHeap_spec : ∀ (H : Heap) (v : JVal),
    H.cells.length ≤ (valToHeap H v).1.cells.length ∧
    (∀ b, b < H.cells.length → (valToHeap H v).1.get b = H.get b) ∧
    (∀ r ∈ (valToHeap H v).2.refs,
      H.cells.length ≤ r ∧ r < (valToHeap H v).1.cells.length) ∧
    (∀ a c, H.cells.length ≤ a → (valToHeap H v).1.get a = some c →
      ∀ r ∈ c.refs, H.cells.length ≤ r ∧ r < (valToHeap H v).1.cells.length)
  | H, .prim p => by
      refine ⟨le_refl _, fun b _ => rfl, ?_, ?_⟩
      · intro r hr
        simp [valToHeap, HVal.refs] at hr
      · intro a c ha hc
        simp only [valToHeap, valsToHeap, fieldsToHeap] at hc ha ⊢
        exact absurd (Heap.get_lt hc) (by omega)
  | H, .sfunc s d => by
      refine ⟨le_refl _, fun b _ => rfl, ?_, ?_⟩
      · intro r hr
        simp [valToHeap, HVal.refs] at hr
      · intro a c ha hc
        simp only [valToHeap, valsToHeap, fieldsToHeap] at hc ha ⊢
        exact absurd (Heap.get_lt hc) (by omega)
  | H, .gfunc y => by
      refine ⟨le_refl _, fun b _ => rfl, ?_, ?_⟩
      · intro r hr
        simp [valToHeap, HVal.refs] at hr
      · intro a c ha hc
        simp only [valToHeap, valsToHeap, fieldsToHeap] at hc ha ⊢
        exact absurd (Heap.get_lt hc) (by omega)
  | H, .arr es => by
      obtain ⟨h1, h2, h3, h4⟩ := valsToHeap_spec H es
      rcases hp : valsToHeap H es with ⟨H2, hs⟩
      rw [hp] at h1 h2 h3 h4
      dsimp only at h1 h2 h3 h4
      have hlen : (valToHeap H (.arr es)).1.cells.length =
          H2.cells.length + 1 := by
        simp [valToHeap, hp, Heap.length_alloc]
      have hunf : valToHeap H (.arr es) =
          ((H2.alloc (.arrC hs)).1, .ref H2.cells.length) := by
        simp [valToHeap, hp, Heap.alloc]
      rw [hunf]
      dsimp only
      refine ⟨by rw [Heap.length_alloc]; omega, ?_, ?_, ?_⟩
      · intro b hb
        rw [Heap.get_alloc_low _ _ b (by omega)]
        exact h2 b hb
      · intro r hr
        simp [HVal.refs] at hr
        subst hr
        rw [Heap.length_alloc]
        omega
      · intro a c ha hc r hr
        rw [Heap.length_alloc]
        rcases Nat.lt_trichotomy a H2.cells.length with hcase | hcase | hcase
        · rw [Heap.get_alloc_low _ _ a hcase] at hc
          have := h4 a c ha hc r hr
          omega
        · subst hcase
          rw [Heap.get_alloc_new] at hc
          injection hc with hc2
          subst hc2
          simp [HCell.refs] at hr
          obtain ⟨hv, hhv, hr2⟩ := hr
          have := h3 hv hhv r hr2
          omega
        · have hlt := Heap.get_lt hc
          rw [Heap.length_alloc] at hlt
          omega
  | H, .obj fs => by
      obtain ⟨h1, h2, h3, h4⟩ := fieldsToHeap_spec H fs
      rcases hp : fieldsToHeap H fs with ⟨H2, hfs⟩
      rw [hp] at h1 h2 h3 h4
      dsimp only at h1 h2 h3 h4
      have hunf : valToHeap H (.obj fs) =
          ((H2.alloc (.objC hfs)).1, .ref H2.cells.length) := by
        simp [valToHeap, hp, Heap.alloc]
      rw [hunf]
      dsimp only
      refine ⟨by rw [Heap.length_alloc]; omega, ?_, ?_, ?_⟩
      · intro b hb
        rw [Heap.get_alloc_low _ _ b (by omega)]
        exact h2 b hb
      · intro r hr
        simp [HVal.refs] at hr
        subst hr
        rw [Heap.length_alloc]
        omega
      · intro a c ha hc r hr
        rw [Heap.length_alloc]
        rcases Nat.lt_trichotomy a H2.cells.length with hcase | hcase | hcase
        · rw [Heap.get_alloc_low _ _ a hcase] at hc
          have := h4 a c ha hc r hr
          omega
        · subst hcase
          rw [Heap.get_alloc_new] at hc
          injection hc with hc2
          subst hc2
          simp [HCell.refs] at hr
          obtain ⟨kv, hkv, hr2⟩ := List.mem_flatMap.mp hr
          have := h3 kv hkv r hr2
          omega
        · have hlt := Heap.get_lt hc
          rw [Heap.length_alloc] at hlt
          omega

/-- Helper: `valToHeap_spec` over array elements. -/
theorem valsToHeap_spec : ∀ (H : Heap) (es : List JVal),
    H.cells.length ≤ (valsToHeap H es).1.cells.length ∧
    (∀ b, b < H.cells.length → (valsToHeap H es).1.get b = H.get b) ∧
    (∀ hv ∈ (valsToHeap H es).2, ∀ r ∈ hv.refs,
      H.cells.length ≤ r ∧ r < (valsToHeap H es).1.cells.length) ∧
    (∀ a c, H.cells.length ≤ a → (valsToHeap H es).1.get a = some c →
      ∀ r ∈ c.refs, H.cells.length ≤ r ∧ r < (valsToHeap H es).1.cells.length)
  | H, [] => by
      refine ⟨le_refl _, fun b _ => rfl, ?_, ?_⟩
      · intro hv hhv
        simp [valsToHeap] at hhv
      · intro a c ha hc
        simp only [valToHeap, valsToHeap, fieldsToHeap] at hc ha ⊢
        exact absurd (Heap.get_lt hc) (by omega)
  | H, v :: rest => by
      obtain ⟨h1, h2, h3, h4⟩ := valToHeap_spec H v
      rcases hp : valToHeap H v with ⟨H2, hv⟩
      rw [hp] at h1 h2 h3 h4
      dsimp only at h1 h2 h3 h4
      obtain ⟨g1, g2, g3, g4⟩ := valsToHeap_spec H2 rest
      rcases hq : valsToHeap H2 rest with ⟨H3, hs⟩
      rw [hq] at g1 g2 g3 g4
      dsimp only at g1 g2 g3 g4
      have hunf : valsToHeap H (v :: rest) = (H3, hv :: hs) := by
        simp [valsToHeap, hp, hq]
      rw [hunf]
      dsimp only
      refine ⟨by omega, ?_, ?_, ?_⟩
      · intro b hb
        rw [g2 b (by omega)]
        exact h2 b hb
      · intro hv2 hhv2 r hr
        cases hhv2 with
        | head =>
            have := h3 r hr
            have hlow : r < H2.cells.length := this.2
            exact ⟨this.1, by omega⟩
        | tail _ hmem =>
            have := g3 hv2 hmem r hr
            exact ⟨by omega, this.2⟩
      · intro a c ha hc r hr
        rcases Nat.lt_or_ge a H2.cells.length with hcase | hcase
        · rw [g2 a hcase] at hc
          have := h4 a c ha hc r hr
          exact ⟨this.1, by omega⟩
        · have := g4 a c hcase hc r hr
          exact ⟨by omega, this.2⟩

/-- Helper: `valToHeap_spec` over object fields. -/
theorem fieldsToHeap_spec : ∀ (H : Heap) (fs : List (String × JVal)),
    H.cells.length ≤ (fieldsToHeap H fs).1.cells.length ∧
    (∀ b, b < H.cells.length → (fieldsToHeap H fs).1.get b = H.get b) ∧
    (∀ kv ∈ (fieldsToHeap H fs).2, ∀ r ∈ (kv : String × HVal).2.refs,
      H.cells.length ≤ r ∧ r < (fieldsToHeap H fs).1.cells.length) ∧
    (∀ a c, H.cells.length ≤ a → (fieldsToHeap H fs).1.get a = some c →
      ∀ r ∈ c.refs, H.cells.length ≤ r ∧ r < (fieldsToHeap H fs).1.cells.length)
  | H, [] => by
      refine ⟨le_refl _, fun b _ => rfl, ?_, ?_⟩
      · intro kv hkv
        simp [fieldsToHeap] at hkv
      · intro a c ha hc
        simp only [valToHeap, valsToHeap, fieldsToHeap] at hc ha ⊢
        exact absurd (Heap.get_lt hc) (by omega)
  | H, (k, v) :: rest => by
      obtain ⟨h1, h2, h3, h4⟩ := valToHeap_spec H v
      rcases hp : valToHeap H v with ⟨H2, hv⟩
      rw [hp] at h1 h2 h3 h4
      dsimp only at h1 h2 h3 h4
      obtain ⟨g1, g2, g3, g4⟩ := fieldsToHeap_spec H2 rest
      rcases hq : fieldsToHeap H2 rest with ⟨H3, hfs⟩
      rw [hq] at g1 g2 g3 g4
      dsimp only at g1 g2 g3 g4
      have hunf : fieldsToHeap H ((k, v) :: rest) = (H3, (k, hv) :: hfs) := by
        simp [fieldsToHeap, hp, hq]
      rw [hunf]
      dsimp only
      refine ⟨by omega, ?_, ?_, ?_⟩
      · intro b hb
        rw [g2 b (by omega)]
        exact h2 b hb
      · intro kv2 hkv2 r hr
        cases hkv2 with
        | head =>
            have := h3 r hr
            exact ⟨this.1, by omega⟩
        | tail _ hmem =>
            have := g3 kv2 hmem r hr
            exact ⟨by omega, this.2⟩
      · intro a c ha hc r hr
        rcases Nat.lt_or_ge a H2.cells.length with hcase | hcase
        · rw [g2 a hcase] at hc
          have := h4 a c ha hc r hr
          exact ⟨this.1, by omega⟩
        · have := g4 a c hcase hc r hr
          exact ⟨by omega, this.2⟩
end

/-- Helper: materialization preserves heap closure and the high-segment
invariant. -/
theorem fieldsToHeap_inv (H : Heap) (n0 : Nat) (fs : List (String × JVal))
    (hn0 : n0 ≤ H.cells.length) (hC : Closed H) (hH : HighSeg H n0) :
    Closed (fieldsToHeap H fs).1 ∧ HighSeg (fieldsToHeap H fs).1 n0 := by
  obtain ⟨h1, h2, _, h4⟩ := fieldsToHeap_spec H fs
  constructor
  · intro a c hget r hr
    rcases Nat.lt_or_ge a H.cells.length with hcase | hcase
    · rw [h2 a hcase] at hget
      have := hC a c hget r hr
      omega
    · exact (h4 a c hcase hget r hr).2
  · intro a c ha hget r hr
    rcases Nat.lt_or_ge a H.cells.length with hcase | hcase
    · rw [h2 a hcase] at hget
      exact hH a c ha hget r hr
    · have := (h4 a c hcase hget r hr).1
      omega

/-- Helper: materialization of array elements preserves the invariants. -/
theorem valsToHeap_inv (H : Heap) (n0 : Nat) (es : List JVal)
    (hn0 : n0 ≤ H.cells.length) (hC : Closed H) (hH : HighSeg H n0) :
    Closed (valsToHeap H es).1 ∧ HighSeg (valsToHeap H es).1 n0 := by
  obtain ⟨h1, h2, _, h4⟩ := valsToHeap_spec H es
  constructor
  · intro a c hget r hr
    rcases Nat.lt_or_ge a H.cells.length with hcase | hcase
    · rw [h2 a hcase] at hget
      have := hC a c hget r hr
      omega
    · exact (h4 a c hcase hget r hr).2
  · intro a c ha hget r hr
    rcases Nat.lt_or_ge a H.cells.length with hcase | hcase
    · rw [h2 a hcase] at hget
      exact hH a c ha hget r hr
    · have := (h4 a c hcase hget r hr).1
      omega

/-- Helper: materialization of one value preserves the invariants. -/
theorem valToHeap_inv (H : Heap) (n0 : Nat) (v : JVal)
    (hn0 : n0 ≤ H.cells.length) (hC : Closed H) (hH : HighSeg H n0) :
    Closed (valToHeap H v).1 ∧ HighSeg (valToHeap H v).1 n0 := by
  obtain ⟨h1, h2, _, h4⟩ := valToHeap_spec H v
  constructor
  · intro a c hget r hr
    rcases Nat.lt_or_ge a H.cells.length with hcase | hcase
    · rw [h2 a hcase] at hget
      have := hC a c hget r hr
      omega
    · exact (h4 a c hcase hget r hr).2
  · intro a c ha hget r hr
    rcases Nat.lt_or_ge a H.cells.length with hcase | hcase
    · rw [h2 a hcase] at hget
      exact hH a c ha hget r hr
    · have := (h4 a c hcase hget r hr).1
      omega

/-- Helper: an in-place write of a cell in the clone segment, whose content
points only at valid in-segment cells, preserves everything below and the
invariants. -/
theorem heap_set_spec (H : Heap) (n0 a : Nat) (c : HCell)
    (ha : a < H.cells.length) (hn : n0 ≤ a)
    (hrefs : ∀ r ∈ c.refs, n0 ≤ r ∧ r < H.cells.length)
    (hC : Closed H) (hH : HighSeg H n0) :
    (∀ b, b < n0 → (H.set a c).get b = H.get b) ∧
    Closed (H.set a c) ∧ HighSeg (H.set a c) n0 ∧
    (H.set a c).cells.length = H.cells.length := by
  refine ⟨?_, ?_, ?_, Heap.length_set H a c⟩
  · intro b hb
    exact Heap.get_set_of_ne H a c b (by omega)
  · intro b cb hget r hr
    rw [Heap.length_set]
    by_cases hba : b = a
    · subst hba
      rw [Heap.get_set_self H b c ha] at hget
      injection hget with h2
      subst h2
      exact (hrefs r hr).2
    · rw [Heap.get_set_of_ne H a c b hba] at hget
      exact hC b cb hget r hr
  · intro b cb hb hget r hr
    by_cases hba : b = a
    · subst hba
      rw [Heap.get_set_self H b c ha] at hget
      injection hget with h2
      subst h2
      exact (hrefs r hr).1
    · rw [Heap.get_set_of_ne H a c b hba] at hget
      exact hH b cb hb hget r hr

/-- Helper: allocating an empty object cell preserves everything. -/
theorem heap_alloc_empty_spec (H : Heap) (n0 : Nat)
    (hC : Closed H) (hH : HighSeg H n0) :
    (∀ b, b < H.cells.length → (H.alloc (.objC [])).1.get b = H.get b) ∧
    Closed (H.alloc (.objC [])).1 ∧ HighSeg (H.alloc (.objC [])).1 n0 ∧
    (H.alloc (.objC [])).1.cells.length = H.cells.length + 1 := by
  refine ⟨fun b hb => Heap.get_alloc_low H _ b hb, ?_, ?_, Heap.length_alloc H _⟩
  · intro a c hget r hr
    rw [Heap.length_alloc]
    rcases Nat.lt_trichotomy a H.cells.length with hcase | hcase | hcase
    · rw [Heap.get_alloc_low H _ a hcase] at hget
      have := hC a c hget r hr
      omega
    · subst hcase
      rw [Heap.get_alloc_new] at hget
      injection hget with h2
      subst h2
      simp [HCell.refs, refsF] at hr
    · have := Heap.get_lt hget
      rw [Heap.length_alloc] at this
      omega
  · intro a c ha hget r hr
    rcases Nat.lt_trichotomy a H.cells.length with hcase | hcase | hcase
    · rw [Heap.get_alloc_low H _ a hcase] at hget
      exact hH a c ha hget r hr
    · subst hcase
      rw [Heap.get_alloc_new] at hget
      injection hget with h2
      subst h2
      simp [HCell.refs, refsF] at hr
    · have := Heap.get_lt hget
      rw [Heap.length_alloc] at this
      omega

/-- Helper: the in-place `_.extend` merge mutates only its (in-segment)
target cell, preserving the invariants. -/
theorem heapMergeInto_spec (H : Heap) (n0 b : Nat)
    (gs : List (String × HVal)) (fv : JVal)
    (hb : H.get b = some (.objC gs)) (hnb : n0 ≤ b)
    (hn0 : n0 ≤ H.cells.length) (hC : Closed H) (hH : HighSeg H n0) :
    (∀ bb, bb < n0 → (heapMergeInto H b gs fv).get bb = H.get bb) ∧
    Closed (heapMergeInto H b gs fv) ∧ HighSeg (heapMergeInto H b gs fv) n0 ∧
    H.cells.length ≤ (heapMergeInto H b gs fv).cells.length := by
  have hblt : b < H.cells.length := Heap.get_lt hb
  have hgs : ∀ r ∈ refsF gs, n0 ≤ r ∧ r < H.cells.length :=
    fun r hr => ⟨hH b _ hnb hb r hr, hC b _ hb r hr⟩
  cases fv with
  | obj ffs =>
      obtain ⟨h1, h2, h3, _⟩ := fieldsToHeap_spec H ffs
      obtain ⟨hC2, hH2⟩ := fieldsToHeap_inv H n0 ffs hn0 hC hH
      rcases hp : fieldsToHeap H ffs with ⟨H2, hfs⟩
      rw [hp] at h1 h2 h3 hC2 hH2
      dsimp only at h1 h2 h3 hC2 hH2
      have hrefs : ∀ r ∈ HCell.refs (.objC (jsAssign gs hfs)),
          n0 ≤ r ∧ r < H2.cells.length := by
        intro r hr
        rcases mem_refs_jsAssign hr with h4 | h4
        · have := hgs r h4
          omega
        · obtain ⟨kv, hkv, hr2⟩ := List.mem_flatMap.mp h4
          have := h3 kv hkv r hr2
          omega
      have hres := heap_set_spec H2 n0 b (.objC (jsAssign gs hfs))
        (by omega) hnb hrefs hC2 hH2
      have hunf : heapMergeInto H b gs (.obj ffs) =
          H2.set b (.objC (jsAssign gs hfs)) := by
        simp [heapMergeInto, hp]
      rw [hunf]
      refine ⟨?_, hres.2.1, hres.2.2.1, by omega⟩
      intro bb hbb
      rw [hres.1 bb hbb]
      exact h2 bb (by omega)
  | arr es =>
      obtain ⟨h1, h2, h3, _⟩ := valsToHeap_spec H es
      obtain ⟨hC2, hH2⟩ := valsToHeap_inv H n0 es hn0 hC hH
      rcases hp : valsToHeap H es with ⟨H2, hs⟩
      rw [hp] at h1 h2 h3 hC2 hH2
      dsimp only at h1 h2 h3 hC2 hH2
      have hrefs : ∀ r ∈ HCell.refs (.objC (jsAssign gs (indexFields hs))),
          n0 ≤ r ∧ r < H2.cells.length := by
        intro r hr
        rcases mem_refs_jsAssign hr with h4 | h4
        · have := hgs r h4
          omega
        · obtain ⟨hv, hhv, hr2⟩ := mem_refs_indexFields h4
          have := h3 hv hhv r hr2
          omega
      have hres := heap_set_spec H2 n0 b (.objC (jsAssign gs (indexFields hs)))
        (by omega) hnb hrefs hC2 hH2
      have hunf : heapMergeInto H b gs (.arr es) =
          H2.set b (.objC (jsAssign gs (indexFields hs))) := by
        simp [heapMergeInto, hp]
      rw [hunf]
      refine ⟨?_, hres.2.1, hres.2.2.1, by omega⟩
      intro bb hbb
      rw [hres.1 bb hbb]
      exact h2 bb (by omega)
  | prim p => exact ⟨fun bb _ => rfl, hC, hH, le_refl _⟩
  | sfunc s d => exact ⟨fun bb _ => rfl, hC, hH, le_refl _⟩
  | gfunc y => exact ⟨fun bb _ => rfl, hC, hH, le_refl _⟩

/-- Helper: forcing a slot to a fresh `{}` — allocate an empty cell and
point the slot at it — preserves the invariants and leaves the original
segment untouched. -/
theorem heap_fresh_slot_spec (H H2 : Heap) (n0 a b2 : Nat)
    (fs : List (String × HVal)) (k : String)
    (halloc : H.alloc (.objC []) = (H2, b2))
    (hga : H.get a = some (.objC fs)) (hna : n0 ≤ a)
    (hn0 : n0 ≤ H.cells.length) (hC : Closed H) (hH : HighSeg H n0) :
    (∀ b, b < n0 →
      (H2.set a (.objC (objSet fs k (.ref b2)))).get b = H.get b) ∧
    Closed (H2.set a (.objC (objSet fs k (.ref b2)))) ∧
    HighSeg (H2.set a (.objC (objSet fs k (.ref b2)))) n0 ∧
    (H2.set a (.objC (objSet fs k (.ref b2)))).get b2 = some (.objC []) ∧
    n0 ≤ b2 ∧
    (H2.set a (.objC (objSet fs k (.ref b2)))).cells.length =
      H.cells.length + 1 := by
  have hinj : (⟨H.cells ++ [HCell.objC []]⟩ : Heap) = H2 ∧
      H.cells.length = b2 := by
    simpa [Heap.alloc] using halloc
  obtain ⟨hH2, hb2⟩ := hinj
  subst hH2
  subst hb2
  have halt : H.alloc (.objC []) = (⟨H.cells ++ [HCell.objC []]⟩, H.cells.length) := rfl
  have hge := heap_alloc_empty_spec H n0 hC hH
  rw [halt] at hge
  dsimp only at hge
  obtain ⟨hlow2, hC2, hH2, hlen2⟩ := hge
  have halt2 : a < H.cells.length := Heap.get_lt hga
  have hrefs : ∀ r ∈ HCell.refs (.objC (objSet fs k (.ref H.cells.length))),
      n0 ≤ r ∧ r < (⟨H.cells ++ [HCell.objC []]⟩ : Heap).cells.length := by
    intro r hr
    rcases mem_refs_objSet hr with h4 | h4
    · have h5 := hC a _ hga r h4
      have h6 := hH a _ hna hga r h4
      simp only [Heap.mk.injEq] at hlen2 ⊢
      constructor
      · exact h6
      · show r < (List.length _)
        rw [hlen2]
        omega
    · simp [HVal.refs] at h4
      constructor
      · omega
      · show r < (List.length _)
        rw [hlen2]
        omega
  have hset := heap_set_spec ⟨H.cells ++ [HCell.objC []]⟩ n0 a
    (.objC (objSet fs k (.ref H.cells.length)))
    (by rw [hlen2]; omega) hna hrefs hC2 hH2
  obtain ⟨hlow3, hC3, hH3, hlen3⟩ := hset
  refine ⟨?_, hC3, hH3, ?_, by omega, by rw [hlen3, hlen2]⟩
  · intro b hb
    rw [hlow3 b hb]
    exact hlow2 b (by omega)
  · rw [Heap.get_set_of_ne _ _ _ _ (by omega)]
    exact Heap.get_alloc_new H (.objC [])

/-- Helper: the heap-level `createObject` touches only cells reachable
inside the clone segment or freshly allocated ones: everything below `n0`
is untouched, the invariants are preserved, and the heap only grows. -/
theorem heapCreateObject_spec : ∀ (steps : List String) (H : Heap)
    (a n0 : Nat) (fv : JVal), n0 ≤ a → n0 ≤ H.cells.length →
    Closed H → HighSeg H n0 →
    (∀ b, b < n0 → (heapCreateObject H a steps fv).get b = H.get b) ∧
    Closed (heapCreateObject H a steps fv) ∧
    HighSeg (heapCreateObject H a steps fv) n0 ∧
    H.cells.length ≤ (heapCreateObject H a steps fv).cells.length := by
  intro steps
  induction steps with
  | nil =>
      intro H a n0 fv hna hn0 hC hH
      exact ⟨fun b _ => rfl, hC, hH, le_refl _⟩
  | cons step tail ih =>
      intro H a n0 fv hna hn0 hC hH
      cases tail with
      | nil =>
          cases hga : H.get a with
          | none =>
              have hunf : heapCreateObject H a [step] fv = H := by
                simp [heapCreateObject, hga]
              rw [hunf]
              exact ⟨fun b _ => rfl, hC, hH, le_refl _⟩
          | some c =>
              cases c with
              | arrC es =>
                  have hunf : heapCreateObject H a [step] fv = H := by
                    simp [heapCreateObject, hga]
                  rw [hunf]
                  exact ⟨fun b _ => rfl, hC, hH, le_refl _⟩
              | objC fs =>
                  by_cases hcond : (isObjectJ fv && !isFunctionJ fv) = true
                  · rcases hmerge : ∃ b gs, objGet fs step = some (.ref b) ∧
                        H.get b = some (.objC gs) with _
                    clear hmerge
                    by_cases hex : ∃ b gs, objGet fs step = some (.ref b) ∧
                        H.get b = some (.objC gs)
                    · obtain ⟨b, gs, hobj, hgb⟩ := hex
                      have hunf : heapCreateObject H a [step] fv =
                          heapMergeInto H b gs fv := by
                        simp [heapCreateObject, hga, hcond, hobj, hgb]
                      rw [hunf]
                      have hbmem : b ∈ refsF fs :=
                        mem_refs_objGet hobj (by simp [HVal.refs])
                      have hnb : n0 ≤ b := hH a _ hna hga b hbmem
                      exact heapMergeInto_spec H n0 b gs fv hgb hnb hn0 hC hH
                    · rcases halloc : H.alloc (.objC []) with ⟨H2, b2⟩
                      have hunf : heapCreateObject H a [step] fv =
                          heapMergeInto (H2.set a (.objC (objSet fs step
                            (.ref b2)))) b2 [] fv := by
                        cases hobj : objGet fs step with
                        | none => simp [heapCreateObject, hga, hcond, hobj, halloc]
                        | some v =>
                            cases v with
                            | ref b =>
                                cases hgb : H.get b with
                                | none =>
                                    simp [heapCreateObject, hga, hcond, hobj,
                                      hgb, halloc]
                                | some cb =>
                                    cases cb with
                                    | objC gs => exact absurd ⟨b, gs, hobj, hgb⟩ hex
                                    | arrC es =>
                                        simp [heapCreateObject, hga, hcond,
                                          hobj, hgb, halloc]
                            | prim p => simp [heapCreateObject, hga, hcond, hobj, halloc]
                            | sfunc s d => simp [heapCreateObject, hga, hcond, hobj, halloc]
                            | gfunc y => simp [heapCreateObject, hga, hcond, hobj, halloc]
                      rw [hunf]
                      obtain ⟨hlow3, hC3, hH3, hgb2, hnb2, hlen3⟩ :=
                        heap_fresh_slot_spec H H2 n0 a b2 fs step halloc hga
                          hna hn0 hC hH
                      obtain ⟨hlow4, hC4, hH4, hlen4⟩ :=
                        heapMergeInto_spec _ n0 b2 [] fv hgb2 hnb2
                          (by omega) hC3 hH3
                      refine ⟨?_, hC4, hH4, by omega⟩
                      intro b hb
                      rw [hlow4 b hb]
                      exact hlow3 b hb
                  · rcases hp : valToHeap H fv with ⟨H2, hv⟩
                    have hunf : heapCreateObject H a [step] fv =
                        H2.set a (.objC (objSet fs step hv)) := by
                      simp [heapCreateObject, hga, hcond, hp]
                    rw [hunf]
                    obtain ⟨h1, h2, h3, _⟩ := valToHeap_spec H fv
                    obtain ⟨hC2, hH2⟩ := valToHeap_inv H n0 fv hn0 hC hH
                    rw [hp] at h1 h2 h3 hC2 hH2
                    dsimp only at h1 h2 h3 hC2 hH2
                    have hrefs : ∀ r ∈ HCell.refs (.objC (objSet fs step hv)),
                        n0 ≤ r ∧ r < H2.cells.length := by
                      intro r hr
                      rcases mem_refs_objSet hr with h4 | h4
                      · have h5 := hC a _ hga r h4
                        have h6 := hH a _ hna hga r h4
                        omega
                      · have := h3 r h4
                        omega
                    have halt2 : a < H.cells.length := Heap.get_lt hga
                    obtain ⟨hlow3, hC3, hH3, hlen3⟩ :=
                      heap_set_spec H2 n0 a (.objC (objSet fs step hv))
                        (by omega) hna hrefs hC2 hH2
                    refine ⟨?_, hC3, hH3, by omega⟩
                    intro b hb
                    rw [hlow3 b hb]
                    exact h2 b (by omega)
      | cons rest2 rest =>
          cases hga : H.get a with
          | none =>
              have hunf : heapCreateObject H a (step :: rest2 :: rest) fv = H := by
                simp [heapCreateObject, hga]
              rw [hunf]
              exact ⟨fun b _ => rfl, hC, hH, le_refl _⟩
          | some c =>
              cases c with
              | arrC es =>
                  have hunf : heapCreateObject H a (step :: rest2 :: rest) fv = H := by
                    simp [heapCreateObject, hga]
                  rw [hunf]
                  exact ⟨fun b _ => rfl, hC, hH, le_refl _⟩
              | objC fs =>
                  by_cases hex : ∃ b gs, objGet fs step = some (.ref b) ∧
                      H.get b = some (.objC gs)
                  · obtain ⟨b, gs, hobj, hgb⟩ := hex
                    have hunf : heapCreateObject H a (step :: rest2 :: rest) fv =
                        heapCreateObject H b (rest2 :: rest) fv := by
                      simp [heapCreateObject, hga, hobj, hgb]
                    rw [hunf]
                    have hbmem : b ∈ refsF fs :=
                      mem_refs_objGet hobj (by simp [HVal.refs])
                    have hnb : n0 ≤ b := hH a _ hna hga b hbmem
                    exact ih H b n0 fv hnb hn0 hC hH
                  · rcases halloc : H.alloc (.objC []) with ⟨H2, b2⟩
                    have hunf : heapCreateObject H a (step :: rest2 :: rest) fv =
                        heapCreateObject (H2.set a (.objC (objSet fs step
                          (.ref b2)))) b2 (rest2 :: rest) fv := by
                      cases hobj : objGet fs step with
                      | none => simp [heapCreateObject, hga, hobj, halloc]
                      | some v =>
                          cases v with
                          | ref b =>
                              cases hgb : H.get b with
                              | none => simp [heapCreateObject, hga, hobj, hgb, halloc]
                              | some cb =>
                                  cases cb with
                                  | objC gs => exact absurd ⟨b, gs, hobj, hgb⟩ hex
                                  | arrC es =>
                                      simp [heapCreateObject, hga, hobj, hgb, halloc]
                          | prim p => simp [heapCreateObject, hga, hobj, halloc]
                          | sfunc s d => simp [heapCreateObject, hga, hobj, halloc]
                          | gfunc y => simp [heapCreateObject, hga, hobj, halloc]
                    rw [hunf]
                    obtain ⟨hlow3, hC3, hH3, hgb2, hnb2, hlen3⟩ :=
                      heap_fresh_slot_spec H H2 n0 a b2 fs step halloc hga
                        hna hn0 hC hH
                    obtain ⟨hlow4, hC4, hH4, hlen4⟩ :=
                      ih _ b2 n0 fv hnb2 (by omega) hC3 hH3
                    refine ⟨?_, hC4, hH4, by omega⟩
                    intro b hb
                    rw [hlow4 b hb]
                    exact hlow3 b hb

/-- Helper: the heap-level `_.assign` mutates only its in-segment target
cell, preserving everything below `n0` and the invariants. -/
theorem heapAssignVal_spec (H : Heap) (n0 a : Nat) (src : JVal)
    (hna : n0 ≤ a) (hn0 : n0 ≤ H.cells.length)
    (hC : Closed H) (hH : HighSeg H n0) :
    (∀ b, b < n0 → (heapAssignVal H a src).get b = H.get b) ∧
    Closed (heapAssignVal H a src) ∧ HighSeg (heapAssignVal H a src) n0 ∧
    H.cells.length ≤ (heapAssignVal H a src).cells.length := by
  cases hga : H.get a with
  | none =>
      have hunf : heapAssignVal H a src = H := by simp [heapAssignVal, hga]
      rw [hunf]
      exact ⟨fun b _ => rfl, hC, hH, le_refl _⟩
  | some c =>
      cases c with
      | arrC es =>
          have hunf : heapAssignVal H a src = H := by simp [heapAssignVal, hga]
          rw [hunf]
          exact ⟨fun b _ => rfl, hC, hH, le_refl _⟩
      | objC fs =>
          have halt2 : a < H.cells.length := Heap.get_lt hga
          cases src with
          | obj ffs =>
              rcases hp : fieldsToHeap H ffs with ⟨H2, hfs⟩
              have hunf : heapAssignVal H a (.obj ffs) =
                  H2.set a (.objC (jsAssign fs hfs)) := by
                simp [heapAssignVal, hga, hp]
              rw [hunf]
              obtain ⟨h1, h2, h3, _⟩ := fieldsToHeap_spec H ffs
              obtain ⟨hC2, hH2⟩ := fieldsToHeap_inv H n0 ffs hn0 hC hH
              rw [hp] at h1 h2 h3 hC2 hH2
              dsimp only at h1 h2 h3 hC2 hH2
              have hrefs : ∀ r ∈ HCell.refs (.objC (jsAssign fs hfs)),
                  n0 ≤ r ∧ r < H2.cells.length := by
                intro r hr
                rcases mem_refs_jsAssign hr with h4 | h4
                · have h5 := hC a _ hga r h4
                  have h6 := hH a _ hna hga r h4
                  omega
                · obtain ⟨kv, hkv, hr2⟩ := List.mem_flatMap.mp h4
                  have := h3 kv hkv r hr2
                  omega
              obtain ⟨hlow3, hC3, hH3, hlen3⟩ :=
                heap_set_spec H2 n0 a (.objC (jsAssign fs hfs))
                  (by omega) hna hrefs hC2 hH2
              refine ⟨?_, hC3, hH3, by omega⟩
              intro b hb
              rw [hlow3 b hb]
              exact h2 b (by omega)
          | arr es =>
              rcases hp : valsToHeap H es with ⟨H2, hs⟩
              have hunf : heapAssignVal H a (.arr es) =
                  H2.set a (.objC (jsAssign fs (indexFields hs))) := by
                simp [heapAssignVal, hga, hp]
              rw [hunf]
              obtain ⟨h1, h2, h3, _⟩ := valsToHeap_spec H es
              obtain ⟨hC2, hH2⟩ := valsToHeap_inv H n0 es hn0 hC hH
              rw [hp] at h1 h2 h3 hC2 hH2
              dsimp only at h1 h2 h3 hC2 hH2
              have hrefs : ∀ r ∈ HCell.refs (.objC (jsAssign fs (indexFields hs))),
                  n0 ≤ r ∧ r < H2.cells.length := by
                intro r hr
                rcases mem_refs_jsAssign hr with h4 | h4
                · have h5 := hC a _ hga r h4
                  have h6 := hH a _ hna hga r h4
                  omega
                · obtain ⟨hv, hhv, hr2⟩ := mem_refs_indexFields h4
                  have := h3 hv hhv r hr2
                  omega
              obtain ⟨hlow3, hC3, hH3, hlen3⟩ :=
                heap_set_spec H2 n0 a (.objC (jsAssign fs (indexFields hs)))
                  (by omega) hna hrefs hC2 hH2
              refine ⟨?_, hC3, hH3, by omega⟩
              intro b hb
              rw [hlow3 b hb]
              exact h2 b (by omega)
          | prim p =>
              cases p with
              | str s =>
                  have hunf : heapAssignVal H a (.prim (.str s)) =
                      H.set a (.objC (jsAssign fs (indexFields
                        (s.data.map (fun ch => HVal.prim (.str
                          (String.singleton ch))))))) := by
                    simp [heapAssignVal, hga]
                  rw [hunf]
                  have hrefs : ∀ r ∈ HCell.refs (.objC (jsAssign fs (indexFields
                      (s.data.map (fun ch => HVal.prim (.str
                        (String.singleton ch))))))),
                      n0 ≤ r ∧ r < H.cells.length := by
                    intro r hr
                    rcases mem_refs_jsAssign hr with h4 | h4
                    · exact ⟨hH a _ hna hga r h4, hC a _ hga r h4⟩
                    · obtain ⟨hv, hhv, hr2⟩ := mem_refs_indexFields h4
                      obtain ⟨ch, _, heq⟩ := List.mem_map.mp hhv
                      rw [← heq] at hr2
                      simp [HVal.refs] at hr2
                  obtain ⟨hlow3, hC3, hH3, hlen3⟩ :=
                    heap_set_spec H n0 a _ halt2 hna hrefs hC hH
                  exact ⟨hlow3, hC3, hH3, by omega⟩
              | num n =>
                  have hunf : heapAssignVal H a (.prim (.num n)) = H := by
                    simp [heapAssignVal, hga]
                  rw [hunf]
                  exact ⟨fun b _ => rfl, hC, hH, le_refl _⟩
              | boolean bb =>
                  have hunf : heapAssignVal H a (.prim (.boolean bb)) = H := by
                    simp [heapAssignVal, hga]
                  rw [hunf]
                  exact ⟨fun b _ => rfl, hC, hH, le_refl _⟩
              | null =>
                  have hunf : heapAssignVal H a (.prim .null) = H := by
                    simp [heapAssignVal, hga]
                  rw [hunf]
                  exact ⟨fun b _ => rfl, hC, hH, le_refl _⟩
              | undef =>
                  have hunf : heapAssignVal H a (.prim .undef) = H := by
                    simp [heapAssignVal, hga]
                  rw [hunf]
                  exact ⟨fun b _ => rfl, hC, hH, le_refl _⟩
          | sfunc s d =>
              have hunf : heapAssignVal H a (.sfunc s d) = H := by
                simp [heapAssignVal, hga]
              rw [hunf]
              exact ⟨fun b _ => rfl, hC, hH, le_refl _⟩
          | gfunc y =>
              have hunf : heapAssignVal H a (.gfunc y) = H := by
                simp [heapAssignVal, hga]
              rw [hunf]
              exact ⟨fun b _ => rfl, hC, hH, le_refl _⟩

/-- Helper: one heap-level `add` leaves the original segment untouched and
preserves the invariants. -/
theorem heapAdd_spec (H : Heap) (n0 root : Nat) (m g : JVal)
    (hna : n0 ≤ root) (hn0 : n0 ≤ H.cells.length)
    (hC : Closed H) (hH : HighSeg H n0) :
    (∀ b, b < n0 → (heapAdd H root m g).get b = H.get b) ∧
    Closed (heapAdd H root m g) ∧ HighSeg (heapAdd H root m g) n0 ∧
    H.cells.length ≤ (heapAdd H root m g).cells.length := by
  cases m with
  | prim p =>
      cases p with
      | str ref =>
          have hunf : heapAdd H root (.prim (.str ref)) g =
              heapCreateObject H root (splitDot ref) g := rfl
          rw [hunf]
          exact heapCreateObject_spec (splitDot ref) H root n0 g hna hn0 hC hH
      | num n =>
          have hunf : heapAdd H root (.prim (.num n)) g = H := by
            simp [heapAdd, isObjectJ]
          rw [hunf]
          exact ⟨fun b _ => rfl, hC, hH, le_refl _⟩
      | boolean bb =>
          have hunf : heapAdd H root (.prim (.boolean bb)) g = H := by
            simp [heapAdd, isObjectJ]
          rw [hunf]
          exact ⟨fun b _ => rfl, hC, hH, le_refl _⟩
      | null =>
          have hunf : heapAdd H root (.prim .null) g = H := by
            simp [heapAdd, isObjectJ]
          rw [hunf]
          exact ⟨fun b _ => rfl, hC, hH, le_refl _⟩
      | undef =>
          have hunf : heapAdd H root (.prim .undef) g = H := by
            simp [heapAdd, isObjectJ]
          rw [hunf]
          exact ⟨fun b _ => rfl, hC, hH, le_refl _⟩
  | obj fs =>
      by_cases hg : isUndefJ g = true
      · have hunf : heapAdd H root (.obj fs) g = heapAssignVal H root (.obj fs) := by
          simp [heapAdd, hg, isObjectJ]
        rw [hunf]
        exact heapAssignVal_spec H n0 root (.obj fs) hna hn0 hC hH
      · have hunf : heapAdd H root (.obj fs) g = H := by
          simp [heapAdd, hg]
        rw [hunf]
        exact ⟨fun b _ => rfl, hC, hH, le_refl _⟩
  | arr es =>
      by_cases hg : isUndefJ g = true
      · have hunf : heapAdd H root (.arr es) g = heapAssignVal H root (.arr es) := by
          simp [heapAdd, hg, isObjectJ]
        rw [hunf]
        exact heapAssignVal_spec H n0 root (.arr es) hna hn0 hC hH
      · have hunf : heapAdd H root (.arr es) g = H := by
          simp [heapAdd, hg]
        rw [hunf]
        exact ⟨fun b _ => rfl, hC, hH, le_refl _⟩
  | sfunc s d =>
      by_cases hg : isUndefJ g = true
      · have hunf : heapAdd H root (.sfunc s d) g = heapAssignVal H root (.sfunc s d) := by
          simp [heapAdd, hg, isObjectJ]
        rw [hunf]
        exact heapAssignVal_spec H n0 root (.sfunc s d) hna hn0 hC hH
      · have hunf : heapAdd H root (.sfunc s d) g = H := by
          simp [heapAdd, hg]
        rw [hunf]
        exact ⟨fun b _ => rfl, hC, hH, le_refl _⟩
  | gfunc y =>
      by_cases hg : isUndefJ g = true
      · have hunf : heapAdd H root (.gfunc y) g = heapAssignVal H root (.gfunc y) := by
          simp [heapAdd, hg, isObjectJ]
        rw [hunf]
        exact heapAssignVal_spec H n0 root (.gfunc y) hna hn0 hC hH
      · have hunf : heapAdd H root (.gfunc y) g = H := by
          simp [heapAdd, hg]
        rw [hunf]
        exact ⟨fun b _ => rfl, hC, hH, le_refl _⟩

/-- Helper: a whole sequence of heap-level `add` calls leaves the
original segment untouched and preserves the invariants. -/
theorem heapAdds_spec : ∀ (adds : List (JVal × JVal)) (H : Heap)
    (n0 root : Nat), n0 ≤ root → n0 ≤ H.cells.length →
    Closed H → HighSeg H n0 →
    (∀ b, b < n0 → (heapAdds H root adds).get b = H.get b) ∧
    Closed (heapAdds H root adds) ∧ HighSeg (heapAdds H root adds) n0 ∧
    H.cells.length ≤ (heapAdds H root adds).cells.length := by
  intro adds
  induction adds with
  | nil =>
      intro H n0 root hna hn0 hC hH
      exact ⟨fun b _ => rfl, hC, hH, le_refl _⟩
  | cons mg rest ih =>
      intro H n0 root hna hn0 hC hH
      rcases mg with ⟨m, g⟩
      obtain ⟨hlow1, hC1, hH1, hlen1⟩ := heapAdd_spec H n0 root m g hna hn0 hC hH
      obtain ⟨hlow2, hC2, hH2, hlen2⟩ :=
        ih (heapAdd H root m g) n0 root hna (by omega) hC1 hH1
      have hunf : heapAdds H root ((m, g) :: rest) =
          heapAdds (heapAdd H root m g) root rest := rfl
      rw [hunf]
      refine ⟨?_, hC2, hH2, by omega⟩
      intro b hb
      rw [hlow2 b hb]
      exact hlow1 b hb

/-- Helper: the deep-copying constructor leaves the parent's cells
untouched, keeps the heap closed, and the clone root together with the
whole clone lives in the fresh segment at or above the old heap size. -/
theorem heapInherit_spec (H : Heap) (cloneFuel r1 : Nat) (hC : Closed H) :
    (∀ b, b < H.cells.length →
      (heapInherit H cloneFuel r1).1.get b = H.get b) ∧
    Closed (heapInherit H cloneFuel r1).1 ∧
    HighSeg (heapInherit H cloneFuel r1).1 H.cells.length ∧
    H.cells.length ≤ (heapInherit H cloneFuel r1).2 ∧
    (heapInherit H cloneFuel r1).2 < (heapInherit H cloneFuel r1).1.cells.length := by
  have hHtriv : HighSeg H H.cells.length := by
    intro a c ha hget r hr
    have := Heap.get_lt hget
    omega
  rcases hfs : (match readVal cloneFuel H (.ref r1) with
    | some (.obj fs) => fs
    | _ => ([] : List (String × JVal))) with fs0
  rcases hp : fieldsToHeap H fs0 with ⟨H2, hfs2⟩
  have hunf : heapInherit H cloneFuel r1 = ((H2.alloc (.objC hfs2)).1,
      (H2.alloc (.objC hfs2)).2) := by
    simp only [heapInherit]
    rw [hfs, hp]
  obtain ⟨h1, h2, h3, h4⟩ := fieldsToHeap_spec H fs0
  obtain ⟨hC2, hH2⟩ := fieldsToHeap_inv H H.cells.length fs0 (le_refl _) hC hHtriv
  rw [hp] at h1 h2 h3 h4 hC2 hH2
  dsimp only at h1 h2 h3 h4 hC2 hH2
  rw [hunf]
  dsimp only
  have hb2 : (H2.alloc (.objC hfs2)).2 = H2.cells.length := rfl
  refine ⟨?_, ?_, ?_, ?_, ?_⟩
  · intro b hb
    rw [Heap.get_alloc_low H2 _ b (by omega)]
    exact h2 b hb
  · intro a c hget r hr
    rw [Heap.length_alloc]
    rcases Nat.lt_trichotomy a H2.cells.length with hcase | hcase | hcase
    · rw [Heap.get_alloc_low H2 _ a hcase] at hget
      have := hC2 a c hget r hr
      omega
    · subst hcase
      rw [Heap.get_alloc_new] at hget
      injection hget with h5
      subst h5
      obtain ⟨kv, hkv, hr2⟩ := List.mem_flatMap.mp hr
      have := h3 kv hkv r hr2
      omega
    · have := Heap.get_lt hget
      rw [Heap.length_alloc] at this
      omega
  · intro a c ha hget r hr
    rcases Nat.lt_trichotomy a H2.cells.length with hcase | hcase | hcase
    · rw [Heap.get_alloc_low H2 _ a hcase] at hget
      exact hH2 a c ha hget r hr
    · subst hcase
      rw [Heap.get_alloc_new] at hget
      injection hget with h5
      subst h5
      obtain ⟨kv, hkv, hr2⟩ := List.mem_flatMap.mp hr
      have := h3 kv hkv r hr2
      omega
    · have := Heap.get_lt hget
      rw [Heap.length_alloc] at this
      omega
  · rw [hb2]
    omega
  · rw [hb2, Heap.length_alloc]
    omega

/-- Helper: a closed heap is low-closed at its own size. -/
theorem lowClosed_of_closed (H : Heap) (hC : Closed H) :
    LowClosed H H.cells.length :=
  fun a c _ hget r hr => hC a c hget r hr

mutual
/-- Helper frame rule: reading a value whose references stay below `n0`
is unaffected by changes at or above `n0`. -/
theorem readVal_frame : ∀ (fuel : Nat) (H H2 : Heap) (n0 : Nat),
    (∀ b, b < n0 → H2.get b = H.get b) → LowClosed H n0 →
    ∀ v : HVal, (∀ r ∈ v.refs, r < n0) →
    readVal fuel H2 v = readVal fuel H v
  | 0, _, _, _, _, _, _, _ => rfl
  | fuel + 1, H, H2, n0, hA, hL, v, hv => by
      cases v with
      | prim p => rfl
      | sfunc s d => rfl
      | gfunc y => rfl
      | ref a =>
          have ha : a < n0 := hv a (by simp [HVal.refs])
          have hget : H2.get a = H.get a := hA a ha
          simp only [readVal]
          rw [hget]
          cases hga : H.get a with
          | none => rfl
          | some c =>
              cases c with
              | objC fs =>
                  have hrefs : ∀ kv ∈ fs, ∀ r ∈ kv.2.refs, r < n0 := by
                    intro kv hkv r hr2
                    exact hL a _ ha hga r (List.mem_flatMap.mpr ⟨kv, hkv, hr2⟩)
                  show Option.map JVal.obj (readFields fuel H2 fs) =
                    Option.map JVal.obj (readFields fuel H fs)
                  rw [readFields_frame fuel H H2 n0 hA hL fs hrefs]
              | arrC es =>
                  have hrefs : ∀ hv2 ∈ es, ∀ r ∈ HVal.refs hv2, r < n0 := by
                    intro hv2 hhv2 r hr2
                    exact hL a _ ha hga r (List.mem_flatMap.mpr ⟨hv2, hhv2, hr2⟩)
                  show Option.map JVal.arr (readVals fuel H2 es) =
                    Option.map JVal.arr (readVals fuel H es)
                  rw [readVals_frame fuel H H2 n0 hA hL es hrefs]
termination_by structural fuel _ _ _ _ _ _ _ => fuel

/-- `readVal_frame` over array elements. -/
theorem readVals_frame : ∀ (fuel : Nat) (H H2 : Heap) (n0 : Nat),
    (∀ b, b < n0 → H2.get b = H.get b) → LowClosed H n0 →
    ∀ vs : List HVal, (∀ v ∈ vs, ∀ r ∈ HVal.refs v, r < n0) →
    readVals fuel H2 vs = readVals fuel H vs
  | 0, _, _, _, _, _, _, _ => rfl
  | fuel + 1, H, H2, n0, hA, hL, vs, hv => by
      cases vs with
      | nil => rfl
      | cons v rest =>
          simp only [readVals]
          rw [readVal_frame fuel H H2 n0 hA hL v
              (fun r hr => hv v (by simp) r hr),
            readVals_frame fuel H H2 n0 hA hL rest
              (fun w hw r hr => hv w (by simp [hw]) r hr)]
termination_by structural fuel _ _ _ _ _ _ _ => fuel

/-- `readVal_frame` over object fields. -/
theorem readFields_frame : ∀ (fuel : Nat) (H H2 : Heap) (n0 : Nat),
    (∀ b, b < n0 → H2.get b = H.get b) → LowClosed H n0 →
    ∀ fs : List (String × HVal), (∀ kv ∈ fs, ∀ r ∈ kv.2.refs, r < n0) →
    readFields fuel H2 fs = readFields fuel H fs
  | 0, _, _, _, _, _, _, _ => rfl
  | fuel + 1, H, H2, n0, hA, hL, fs, hv => by
      cases fs with
      | nil => rfl
      | cons kv rest =>
          rcases kv with ⟨k, v⟩
          simp only [readFields]
          rw [readVal_frame fuel H H2 n0 hA hL v
              (fun r hr => hv (k, v) (by simp) r hr),
            readFields_frame fuel H H2 n0 hA hL rest
              (fun w hw r hr => hv w (by simp [hw]) r hr)]
termination_by structural fuel _ _ _ _ _ _ _ => fuel
end

/-- C7: deep-copy isolation.  For any heap `H0` holding builder `b1`'s
tree at root `r1`, constructing `b2 = new JSONifier(b1)` (`heapInherit`,
the `_.cloneDeep` of the constructor) and then mutating `b2` through any
sequence of `add` calls (`heapAdds` at the clone's root) never changes the
tree readable at `r1`, hence never changes the first snapshot produced by
`b1.build()`: the clone lives in a fresh heap segment and no `add` write
ever lands below it, so no two builder instances alias mutable tree
state. -/
theorem C7_theorem (H0 : Heap) (r1 cloneFuel : Nat)
    (adds : List (JVal × JVal)) (hC : Closed H0)
    (hr1 : r1 < H0.cells.length) :
    (∀ fuel, readVal fuel (heapAdds (heapInherit H0 cloneFuel r1).1
        (heapInherit H0 cloneFuel r1).2 adds) (.ref r1) =
      readVal fuel H0 (.ref r1)) ∧
    (∀ fuel, heapFirstSnapshot fuel (heapAdds (heapInherit H0 cloneFuel r1).1
        (heapInherit H0 cloneFuel r1).2 adds) r1 =
      heapFirstSnapshot fuel H0 r1) := by
  obtain ⟨hlow1, hC1, hH1, hr2ge, hr2lt⟩ := heapInherit_spec H0 cloneFuel r1 hC
  obtain ⟨hlow2, hC2, hH2, hlen2⟩ := heapAdds_spec adds
    (heapInherit H0 cloneFuel r1).1 H0.cells.length
    (heapInherit H0 cloneFuel r1).2 hr2ge (by omega) hC1 hH1
  have hlowAll : ∀ b, b < H0.cells.length →
      (heapAdds (heapInherit H0 cloneFuel r1).1
        (heapInherit H0 cloneFuel r1).2 adds).get b = H0.get b := by
    intro b hb
    rw [hlow2 b hb]
    exact hlow1 b hb
  have hL : LowClosed H0 H0.cells.length := lowClosed_of_closed H0 hC
  have hread : ∀ fuel, readVal fuel (heapAdds (heapInherit H0 cloneFuel r1).1
      (heapInherit H0 cloneFuel r1).2 adds) (.ref r1) =
      readVal fuel H0 (.ref r1) := by
    intro fuel
    exact readVal_frame fuel H0 _ H0.cells.length hlowAll hL (.ref r1)
      (by intro r hr; simp [HVal.refs] at hr; omega)
  refine ⟨hread, ?_⟩
  intro fuel
  simp only [heapFirstSnapshot]
  rw [hread fuel]

/-- Witness for C7 at a concrete one-cell parent heap `{a: 1}` with an
`add('x', 5)` on the clone. -/
theorem C7_witness :
    (∀ fuel, readVal fuel
        (heapAdds (heapInherit ⟨[HCell.objC [("a", HVal.prim (.num 1))]]⟩ 5 0).1
          (heapInherit ⟨[HCell.objC [("a", HVal.prim (.num 1))]]⟩ 5 0).2
          [(.prim (.str "x"), .prim (.num 5))]) (.ref 0) =
      readVal fuel (⟨[HCell.objC [("a", HVal.prim (.num 1))]]⟩ : Heap) (.ref 0)) ∧
    (∀ fuel, heapFirstSnapshot fuel
        (heapAdds (heapInherit ⟨[HCell.objC [("a", HVal.prim (.num 1))]]⟩ 5 0).1
          (heapInherit ⟨[HCell.objC [("a", HVal.prim (.num 1))]]⟩ 5 0).2
          [(.prim (.str "x"), .prim (.num 5))]) 0 =
      heapFirstSnapshot fuel (⟨[HCell.objC [("a", HVal.prim (.num 1))]]⟩ : Heap) 0) := by
  have hC : Closed ⟨[HCell.objC [("a", HVal.prim (.num 1))]]⟩ := by
    intro a c hget r hr
    cases a with
    | zero =>
        simp only [Heap.get, List.get?] at hget
        injection hget with h2
        subst h2
        simp [HCell.refs, refsF, HVal.refs] at hr
    | succ n =>
        simp [Heap.get, List.get?] at hget
  exact C7_theorem ⟨[HCell.objC [("a", HVal.prim (.num 1))]]⟩ 0 5
    [(.prim (.str "x"), .prim (.num 5))] hC (by simp)

/-- Witness for C2 at key `a` and pull index `5`. -/
theorem C2_witness :
    nthPullValue ⟨[("a", .gfunc [pnum 1, pnum 2])], none, none⟩
        (some (.opts none none (some (-1)))) 5 =
      .ok (some (.obj [("a", .prim .undef)])) :=
  ( C2_theorem "a").2.2 5 (by decide)


end Jsonifier
